import Mathlib

/-!
# gotenv: environment lookup with a case-insensitive default store

A shallow embedding of `global.go` (package `gotenv`).

* Go strings are Lean `String`s.  `strings.ToLower` maps every character by the
  case table of the Go standard library; the table is not part of the
  repository and is the parameter `L : Lowering`, taken with the three
  properties of it that are used.  `asciiLower` is the table that lower-cases
  `A`..`Z` only; every table agrees with it on ASCII strings.  `strings.Split`
  is a structurally recursive function on the character list, so that every
  definition below evaluates in the kernel.
* A Go `interface{}` value is a `Value`: a string, an integer, a boolean, a
  `map[string]string` (a map type the type switches of `global.go` do not
  name) or a `map[string]interface{}`.  Values of type
  `map[interface{}]interface{}` are converted by `cast.ToStringMap`, a package
  outside the repository, and are not part of `Value`.
* A Go map is unordered.  A map is given as the list of its entries in the
  order in which the `range` loop of the call at hand visits them; reading
  takes the first entry of a key, writing replaces that entry in place or
  appends a new one.  One Go map can be given by different lists, and two lists
  hold the same map when `SameContent` relates them.
* The package variable `defaultEnv` is passed explicitly, and the process
  environment is a function from names to optional values.
* The maps of the store form a tree (every map stored by `SetDefault` is a
  fresh copy), so the in-place writes of `deepSearch` and `SetDefault` are
  given as the functions `deepSearch` (the map returned) and `writeBack` (the
  root after the map at the end of the path has been written).
* A `Value` is a finite tree.  A Go map can also contain itself; such values
  live on a `Heap`, and `toCaseInsensitiveValueAt` is the copy of a heap value
  with the depth of the recursion bounded.
-/

namespace Gotenv

/-! ## Strings -/

/-- The function `unicode.ToLower` of the Go standard library, by which
`strings.ToLower` maps every character: on ASCII it lower-cases `A`..`Z` and
nothing else, a lower-cased character is its own lower-casing, and only the dot
is lower-cased to the dot. -/
structure Lowering where
  /-- The lower-case form of a character. -/
  lower : Char → Char
  /-- On ASCII the table lower-cases `A`..`Z` and nothing else. -/
  ascii : ∀ c : Char, c.toNat < 128 → lower c = Char.toLower c
  /-- A lower-cased character is its own lower-casing. -/
  idem : ∀ c : Char, lower (lower c) = lower c
  /-- Only the dot is lower-cased to the dot. -/
  dot : ∀ c : Char, lower c = '.' → c = '.'

/-- The table that lower-cases `A`..`Z` and leaves every other character. -/
def asciiLower : Lowering where
  lower := Char.toLower
  ascii := fun _ _ => rfl
  idem := by
    intro c
    by_cases h : c.toNat ≥ 65 ∧ c.toNat ≤ 90
    · have hc : c = Char.ofNat c.toNat := (Char.ofNat_toNat c).symm
      obtain ⟨h1, h2⟩ := h
      generalize c.toNat = n at hc h1 h2
      subst hc
      interval_cases n <;> decide
    · have : Char.toLower c = c := by unfold Char.toLower; simp only [h, if_false]
      rw [this, this]
  dot := by
    intro c
    by_cases h : c.toNat ≥ 65 ∧ c.toNat ≤ 90
    · have hc : c = Char.ofNat c.toNat := (Char.ofNat_toNat c).symm
      obtain ⟨h1, h2⟩ := h
      generalize c.toNat = n at hc h1 h2
      subst hc
      interval_cases n <;> decide
    · have : Char.toLower c = c := by unfold Char.toLower; simp only [h, if_false]
      rw [this]
      exact id

/-- Go `strings.ToLower`. -/
def toLower (L : Lowering) (s : String) : String :=
  String.mk (s.data.map L.lower)

/-- The segments of a character list between the dots; never empty. -/
def splitDots : List Char → List (List Char)
  | [] => [[]]
  | c :: cs =>
    if c = '.' then [] :: splitDots cs
    else
      match splitDots cs with
      | [] => [[c]]
      | seg :: rest => (c :: seg) :: rest

/-- Go `strings.Split(s, ".")`. -/
def Split (s : String) : List String :=
  (splitDots s.data).map String.mk

/-! ## Values and maps -/

/-- A Go `interface{}` value as the store can hold it. -/
inductive Value where
  | str (s : String)
  | int (n : Int)
  | bool (b : Bool)
  | strs (m : List (String × String))
  | map (m : List (String × Value))

/-- A Go `map[string]interface{}`. -/
abbrev StrMap := List (String × Value)

mutual
/-- Equality of values is decidable. -/
def Value.decEq : (a b : Value) → Decidable (a = b)
  | .str s, .str t =>
    if h : s = t then isTrue (by rw [h]) else isFalse (by intro e; cases e; exact h rfl)
  | .int s, .int t =>
    if h : s = t then isTrue (by rw [h]) else isFalse (by intro e; cases e; exact h rfl)
  | .bool s, .bool t =>
    if h : s = t then isTrue (by rw [h]) else isFalse (by intro e; cases e; exact h rfl)
  | .strs s, .strs t =>
    if h : s = t then isTrue (by rw [h]) else isFalse (by intro e; cases e; exact h rfl)
  | .map s, .map t =>
    match StrMap.decEq s t with
    | isTrue h => isTrue (by rw [h])
    | isFalse h => isFalse (by intro e; cases e; exact h rfl)
  | .str _, .int _ => isFalse (by intro e; cases e)
  | .str _, .bool _ => isFalse (by intro e; cases e)
  | .str _, .strs _ => isFalse (by intro e; cases e)
  | .str _, .map _ => isFalse (by intro e; cases e)
  | .int _, .str _ => isFalse (by intro e; cases e)
  | .int _, .bool _ => isFalse (by intro e; cases e)
  | .int _, .strs _ => isFalse (by intro e; cases e)
  | .int _, .map _ => isFalse (by intro e; cases e)
  | .bool _, .str _ => isFalse (by intro e; cases e)
  | .bool _, .int _ => isFalse (by intro e; cases e)
  | .bool _, .strs _ => isFalse (by intro e; cases e)
  | .bool _, .map _ => isFalse (by intro e; cases e)
  | .strs _, .str _ => isFalse (by intro e; cases e)
  | .strs _, .int _ => isFalse (by intro e; cases e)
  | .strs _, .bool _ => isFalse (by intro e; cases e)
  | .strs _, .map _ => isFalse (by intro e; cases e)
  | .map _, .str _ => isFalse (by intro e; cases e)
  | .map _, .int _ => isFalse (by intro e; cases e)
  | .map _, .bool _ => isFalse (by intro e; cases e)
  | .map _, .strs _ => isFalse (by intro e; cases e)
/-- Equality of maps is decidable. -/
def StrMap.decEq : (a b : List (String × Value)) → Decidable (a = b)
  | [], [] => isTrue rfl
  | [], _ :: _ => isFalse (by intro e; cases e)
  | _ :: _, [] => isFalse (by intro e; cases e)
  | (k, v) :: tl, (k2, v2) :: tl2 =>
    if hk : k = k2 then
      match Value.decEq v v2 with
      | isTrue hv =>
        match StrMap.decEq tl tl2 with
        | isTrue ht => isTrue (by rw [hk, hv, ht])
        | isFalse ht => isFalse (by intro e; cases e; exact ht rfl)
      | isFalse hv => isFalse (by intro e; cases e; exact hv rfl)
    else isFalse (by intro e; cases e; exact hk rfl)
end

instance : DecidableEq Value := Value.decEq
/-- The map read `v, ok := m[k]`. -/
def lookup : StrMap → String → Option Value
  | [], _ => none
  | (k', v) :: tl, k => if k' = k then some v else lookup tl k

/-- The map write `m[k] = v`. -/
def insert : StrMap → String → Value → StrMap
  | [], k, v => [(k, v)]
  | (k', v') :: tl, k, v => if k' = k then (k, v) :: tl else (k', v') :: insert tl k v

/-- The keys of a map. -/
def keys (m : StrMap) : List String := m.map Prod.fst

mutual
/-- The function `toCaseInsensitiveValue` of `global.go`; `copyLoop L m []` is
`copyAndInsensitiviseMap(m)`.  A `map[string]string` is matched by no arm of
the type switch and is returned as it is. -/
def toCaseInsensitiveValue (L : Lowering) : Value → Value
  | .map m => .map (copyLoop L m [])
  | v => v
/-- The `range` loop of `copyAndInsensitiviseMap`, over the entries in the order
the loop visits them: `nm` is the map built so far.  The type switch of the
loop body has the arms of `toCaseInsensitiveValue` (a map is copied by
`copyAndInsensitiviseMap`, any other value is kept), so the body is
`nm[lkey] = toCaseInsensitiveValue(val)`. -/
def copyLoop (L : Lowering) : StrMap → StrMap → StrMap
  | [], nm => nm
  | (key, val) :: rest, nm =>
    copyLoop L rest (insert nm (toLower L key) (toCaseInsensitiveValue L val))
end

/-- The function `copyAndInsensitiviseMap` of `global.go`. -/
def copyAndInsensitiviseMap (L : Lowering) (m : StrMap) : StrMap := copyLoop L m []

/-- The map `deepSearch` returns: the one found or created at the end of `path`. -/
def deepSearch : StrMap → List String → StrMap
  | m, [] => m
  | m, k :: path =>
    match lookup m k with
    | none => deepSearch [] path
    | some (.map m3) => deepSearch m3 path
    | some _ => deepSearch [] path

/-- The root map `m` once `deepSearch m path` has run and the map it returned
has been given the contents `d`. -/
def writeBack : StrMap → List String → StrMap → StrMap
  | _, [], d => d
  | m, k :: path, d =>
    match lookup m k with
    | none => insert m k (.map (writeBack [] path d))
    | some (.map m3) => insert m k (.map (writeBack m3 path d))
    | some _ => insert m k (.map (writeBack [] path d))

/-- The function `SetDefault` of `global.go`; `none` is the run-time failure of
`path[len(path)-1]` on an empty `path`. -/
def SetDefault (L : Lowering) (defaultEnv : StrMap) (key : String) (value : Value) :
    Option StrMap :=
  let key := toLower L key
  let value := toCaseInsensitiveValue L value
  let path := Split key
  match path.getLast? with
  | none => none
  | some last =>
    let lastKey := toLower L last
    let deepestMap := deepSearch defaultEnv path.dropLast
    some (writeBack defaultEnv path.dropLast (insert deepestMap lastKey value))

/-! ## The environment and the getters -/

/-- The process environment: the value of each variable that is set. -/
abbrev Env := String → Option String

/-- Go `os.Getenv`: the empty string for a variable that is not set.  The name
is matched exactly, as where variable names are case-sensitive. -/
def Getenv (env : Env) (name : String) : String :=
  match env name with
  | some val => val
  | none => ""

/-- The function `Get` of `global.go`. -/
def Get (L : Lowering) (env : Env) (defaultEnv : StrMap) (key : String) : Value :=
  let key := toLower L key
  let val := Getenv env key
  if val = "" then
    match lookup defaultEnv key with
    | some v => v
    | none => .str val
  else .str val

/-! ## Coercions of `github.com/spf13/cast` -/

/-- Modelled from the spec: `strconv.ParseBool` as `cast.ToBool` applies it to a
string (the package `cast` is not under `src/`): the six spellings of true give
`true`, everything else gives `false`. -/
def parseBool (s : String) : Bool :=
  s = "1" ∨ s = "t" ∨ s = "T" ∨ s = "TRUE" ∨ s = "true" ∨ s = "True"

/-- The number a run of decimal digits denotes, after the digits `acc` read so far. -/
def parseDigits : List Char → Nat → Option Nat
  | [], acc => some acc
  | c :: cs, acc =>
    if 48 ≤ c.toNat ∧ c.toNat ≤ 57 then parseDigits cs (acc * 10 + (c.toNat - 48)) else none

/-- Modelled from the spec: the integer a numeric string denotes (`cast` is not
under `src/`): an optional sign and at least one decimal digit; `none` for a
string that is not numeric. -/
def parseInt (s : String) : Option Int :=
  match s.data with
  | [] => none
  | c :: cs =>
    if c = '-' then
      (if cs = [] then none else (parseDigits cs 0).map (fun n => -(n : Int)))
    else if c = '+' then
      (if cs = [] then none else (parseDigits cs 0).map (fun n => (n : Int)))
    else (parseDigits (c :: cs) 0).map (fun n => (n : Int))

/-- The Go conversion of an integer to a signed type of `bits` bits. -/
def wrapSigned (bits : Nat) (n : Int) : Int :=
  (n + 2 ^ (bits - 1)) % 2 ^ bits - 2 ^ (bits - 1)

/-- Modelled from the spec: `cast.ToString` (`cast` is not under `src/`): a
string is itself; a number or a boolean is printed; a map has no string form
and gives the zero value. -/
def castToString : Value → String
  | .str s => s
  | .int n => toString n
  | .bool b => if b then "true" else "false"
  | .strs _ => ""
  | .map _ => ""

/-- Modelled from the spec: `cast.ToBool` (`cast` is not under `src/`): a string
is parsed, a number is true when it is not zero, a map gives the zero value. -/
def castToBool : Value → Bool
  | .str s => parseBool s
  | .int n => n ≠ 0
  | .bool b => b
  | .strs _ => false
  | .map _ => false

/-- Modelled from the spec: `cast.ToInt`, `cast.ToInt32`, `cast.ToInt64` at the
width `bits` (`cast` is not under `src/`): a numeric string that fits the width
is its number, any other string is zero. -/
def castToInt (bits : Nat) : Value → Int
  | .str s =>
    match parseInt s with
    | some n => if -(2 ^ (bits - 1)) ≤ n ∧ n < 2 ^ (bits - 1) then n else 0
    | none => 0
  | .int n => wrapSigned bits n
  | .bool b => if b then 1 else 0
  | .strs _ => 0
  | .map _ => 0

/-- Modelled from the spec: `cast.ToUint`, `cast.ToUint32`, `cast.ToUint64` at
the width `bits` (`cast` is not under `src/`): as `castToInt`, and a negative
number is zero. -/
def castToUint (bits : Nat) : Value → Nat
  | .str s =>
    match parseInt s with
    | some n => if 0 ≤ n ∧ n < 2 ^ bits then n.toNat else 0
    | none => 0
  | .int n => if 0 ≤ n then n.toNat % 2 ^ bits else 0
  | .bool b => if b then 1 else 0
  | .strs _ => 0
  | .map _ => 0

/-- The width of the Go types `int` and `uint`. -/
def intSize : Nat := 64

/-- The function `GetString` of `global.go`. -/
def GetString (L : Lowering) (env : Env) (defaultEnv : StrMap) (key : String) : String :=
  castToString (Get L env defaultEnv key)

/-- The function `GetBool` of `global.go`. -/
def GetBool (L : Lowering) (env : Env) (defaultEnv : StrMap) (key : String) : Bool :=
  castToBool (Get L env defaultEnv key)

/-- The function `GetInt` of `global.go`. -/
def GetInt (L : Lowering) (env : Env) (defaultEnv : StrMap) (key : String) : Int :=
  castToInt intSize (Get L env defaultEnv key)

/-- The function `GetInt32` of `global.go`. -/
def GetInt32 (L : Lowering) (env : Env) (defaultEnv : StrMap) (key : String) : Int :=
  castToInt 32 (Get L env defaultEnv key)

/-- The function `GetInt64` of `global.go`. -/
def GetInt64 (L : Lowering) (env : Env) (defaultEnv : StrMap) (key : String) : Int :=
  castToInt 64 (Get L env defaultEnv key)

/-- The function `GetUint` of `global.go`. -/
def GetUint (L : Lowering) (env : Env) (defaultEnv : StrMap) (key : String) : Nat :=
  castToUint intSize (Get L env defaultEnv key)

/-- The function `GetUint32` of `global.go`. -/
def GetUint32 (L : Lowering) (env : Env) (defaultEnv : StrMap) (key : String) : Nat :=
  castToUint 32 (Get L env defaultEnv key)

/-- The function `GetUint64` of `global.go`. -/
def GetUint64 (L : Lowering) (env : Env) (defaultEnv : StrMap) (key : String) : Nat :=
  castToUint 64 (Get L env defaultEnv key)

/-! ## Reading the store along a path -/

/-- The value reached from `v` by reading the keys of `path` one after the
other; every value on the way but the last has to be a map. -/
def getPath : Value → List String → Option Value
  | v, [] => some v
  | .map m, k :: path =>
    match lookup m k with
    | some w => getPath w path
    | none => none
  | _, _ :: _ => none

/-- The value `v` wrapped in one single-entry map for each key of `path`. -/
def singletonPath : List String → Value → Value
  | [], v => v
  | k :: path, v => .map [(k, singletonPath path v)]

/-- Every key of every map of the value equals its own lower-casing. -/
def allKeysLower (L : Lowering) : Value → Bool
  | .map m => allKeysLowerMap m
  | .strs m => m.all (fun e => decide (toLower L e.1 = e.1))
  | _ => true
where
  /-- Every key of the entries, and of every map below them, is lower-case. -/
  allKeysLowerMap : StrMap → Bool
    | [] => true
    | (k, v) :: tl => decide (toLower L k = k) && allKeysLower L v && allKeysLowerMap tl

mutual
/-- The value `stored` is `orig` with the keys of its `map[string]interface{}`
maps lower-cased: any other value is unchanged; such a map becomes a map whose
keys are the lower-cased keys of the original and whose every entry comes, in
the same way, from an entry of the original with that lower-cased key. -/
def KeyNormalised (L : Lowering) : Value → Value → Prop
  | .map m, .map nm =>
    (∀ x, x ∈ keys nm ↔ x ∈ (keys m).map (toLower L))
      ∧ ∀ x w, lookup nm x = some w → HasSource L m x w
  | .map _, _ => False
  | .str s, stored => stored = .str s
  | .int n, stored => stored = .int n
  | .bool b, stored => stored = .bool b
  | .strs m, stored => stored = .strs m
/-- Some entry of the original map `m` has the lower-cased key `x` and the
value `w` once normalised. -/
def HasSource (L : Lowering) : StrMap → String → Value → Prop
  | [], _, _ => False
  | (k, v) :: rest, x, w => (toLower L k = x ∧ KeyNormalised L v w) ∨ HasSource L rest x w
end

/-- No two keys of one `map[string]interface{}` of the value have the same
lower-casing, at any nesting level. -/
def NoCollision (L : Lowering) : Value → Bool
  | .map m => decide ((keys m).map (toLower L)).Nodup && NoCollisionAll m
  | _ => true
where
  /-- No value of the entries has keys that collide. -/
  NoCollisionAll : StrMap → Bool
    | [] => true
    | (_, v) :: tl => NoCollision L v && NoCollisionAll tl

/-- What is seen of a value without looking into a `map[string]interface{}`. -/
def shape : Value → Value
  | .map _ => .map []
  | v => v

/-- Two values hold the same contents: along every path both lead nowhere, or
to the same value that is not a `map[string]interface{}`, or both to such a
map.  Two lists give the same Go map, in two orders, when this holds. -/
def SameContent (a b : Value) : Prop :=
  ∀ p : List String, (getPath a p).map shape = (getPath b p).map shape

/-- The map one step of the loop of `deepSearch` continues from, given the
result of the read `m[k]`: the map found there, or else a new empty map. -/
def nextMap : Option Value → StrMap
  | some (.map m3) => m3
  | _ => []

/-- The store states reachable from the empty store by `SetDefault` calls. -/
inductive Reachable (L : Lowering) : StrMap → Prop where
  | empty : Reachable L []
  | step {s s2 : StrMap} (key : String) (v : Value) :
      Reachable L s → SetDefault L s key v = some s2 → Reachable L s2

/-! ## Values that can contain themselves -/

/-- A Go value as the caller holds it: a `map[string]interface{}` is an object
of the heap, named by its address, so that a map can be an entry of itself. -/
inductive Ref where
  | str (s : String)
  | int (n : Int)
  | bool (b : Bool)
  | strs (m : List (String × String))
  | mapAt (addr : Nat)

/-- The `map[string]interface{}` objects of the caller, by address. -/
abbrev Heap := List (List (String × Ref))

/-- The `range` loop of `copyAndInsensitiviseMap` over the entries of a heap
object; `conv` is what the loop body makes of a value, `none` when that does
not return. -/
def copyLoopAt (L : Lowering) (conv : Ref → Option Value) :
    List (String × Ref) → StrMap → Option StrMap
  | [], nm => some nm
  | (key, val) :: rest, nm =>
    match conv val with
    | none => none
    | some w => copyLoopAt L conv rest (insert nm (toLower L key) w)

/-- The function `toCaseInsensitiveValue` on a heap value, with at most `depth`
calls of `copyAndInsensitiviseMap` inside one another; `none` when the copy
needs more than that. -/
def toCaseInsensitiveValueAt (L : Lowering) (h : Heap) : Nat → Ref → Option Value
  | _, .str s => some (.str s)
  | _, .int n => some (.int n)
  | _, .bool b => some (.bool b)
  | _, .strs m => some (.strs m)
  | 0, .mapAt _ => none
  | depth + 1, .mapAt a =>
    match copyLoopAt L (toCaseInsensitiveValueAt L h depth) (h.getD a []) [] with
    | none => none
    | some nm => some (.map nm)

/-- The function `SetDefault` on a heap value, with the depth of the copy
bounded; `none` when the call does not return a store. -/
def SetDefaultAt (L : Lowering) (h : Heap) (depth : Nat) (defaultEnv : StrMap)
    (key : String) (value : Ref) : Option StrMap :=
  let key := toLower L key
  match toCaseInsensitiveValueAt L h depth value with
  | none => none
  | some value =>
    let path := Split key
    match path.getLast? with
    | none => none
    | some last =>
      let lastKey := toLower L last
      let deepestMap := deepSearch defaultEnv path.dropLast
      some (writeBack defaultEnv path.dropLast (insert deepestMap lastKey value))

mutual
/-- The heap value `r` is the finite value `v`. -/
def Denotes (h : Heap) : Ref → Value → Prop
  | r, .str s => r = .str s
  | r, .int n => r = .int n
  | r, .bool b => r = .bool b
  | r, .strs m => r = .strs m
  | r, .map m => ∃ a es, r = .mapAt a ∧ h[a]? = some es ∧ DenotesAll h es m
/-- The heap entries `es` are the entries `m`, one by one. -/
def DenotesAll (h : Heap) : List (String × Ref) → StrMap → Prop
  | es, [] => es = []
  | es, (k, v) :: tl => ∃ r rest, es = (k, r) :: rest ∧ Denotes h r v ∧ DenotesAll h rest tl
end

/-- The number of `map[string]interface{}` maps inside one another in a value. -/
def nesting : Value → Nat
  | .map m => nestingAll m + 1
  | _ => 0
where
  /-- The largest nesting among the values of the entries. -/
  nestingAll : StrMap → Nat
    | [] => 0
    | (_, v) :: tl => max (nesting v) (nestingAll tl)

/-- The value contains no `map[string]string`. -/
def noTyped : Value → Bool
  | .map m => noTypedAll m
  | .strs _ => false
  | _ => true
where
  /-- No value of the entries contains a `map[string]string`. -/
  noTypedAll : StrMap → Bool
    | [] => true
    | (_, v) :: tl => noTyped v && noTypedAll tl

/-- The store states reachable from the empty store by `SetDefault` calls whose
values contain no `map[string]string`. -/
inductive PlainReachable (L : Lowering) : StrMap → Prop where
  | empty : PlainReachable L []
  | step {s s2 : StrMap} (key : String) (v : Value) :
      PlainReachable L s → noTyped v = true → SetDefault L s key v = some s2 →
      PlainReachable L s2

/-- Every character of the string is ASCII. -/
def isAscii (s : String) : Bool := s.data.all (fun c => decide (c.toNat < 128))

/-- Every key of every `map[string]interface{}` of the value is ASCII. -/
def asciiKeys : Value → Bool
  | .map m => asciiKeysAll m
  | _ => true
where
  /-- Every key of the entries, and of every map below them, is ASCII. -/
  asciiKeysAll : StrMap → Bool
    | [] => true
    | (k, v) :: tl => isAscii k && asciiKeys v && asciiKeysAll tl

/-- The environment in which no variable is set. -/
def emptyEnv : Env := fun _ => none

/-- The environment in which the one variable `name` is set, to `val`. -/
def singleEnv (name val : String) : Env := fun n => if n = name then some val else none

/-! ## Lemmas: strings -/

variable {L : Lowering}

theorem lower_dot (L : Lowering) : L.lower '.' = '.' := by
  rw [L.ascii '.' (by decide)]
  decide

theorem toLower_data (L : Lowering) (s : String) :
    (toLower L s).data = s.data.map L.lower := rfl

theorem toLower_idem (L : Lowering) (s : String) : toLower L (toLower L s) = toLower L s := by
  unfold toLower
  simp [List.map_map, Function.comp_def, L.idem]

/-- On an ASCII string every table is the one that lower-cases `A`..`Z`. -/
theorem toLower_of_isAscii (L : Lowering) {s : String} (h : isAscii s = true) :
    toLower L s = toLower asciiLower s := by
  unfold toLower
  congr 1
  refine List.map_congr_left ?_
  intro c hc
  have := List.all_eq_true.mp h c hc
  exact L.ascii c (by simpa using this)

theorem splitDots_ne_nil (cs : List Char) : splitDots cs ≠ [] := by
  induction cs with
  | nil => simp [splitDots]
  | cons c cs ih =>
    unfold splitDots
    split
    · simp
    · split
      · simp
      · simp

theorem mem_splitDots {cs seg : List Char} {c : Char}
    (hseg : seg ∈ splitDots cs) (hc : c ∈ seg) : c ∈ cs ∧ c ≠ '.' := by
  induction cs generalizing seg with
  | nil =>
    simp [splitDots] at hseg
    subst hseg
    simp at hc
  | cons d ds ih =>
    unfold splitDots at hseg
    split at hseg
    · rcases List.mem_cons.mp hseg with h | h
      · subst h; simp at hc
      · have := ih h hc
        exact ⟨List.mem_cons_of_mem _ this.1, this.2⟩
    · rename_i hd
      split at hseg
      · rename_i heq
        exact absurd heq (splitDots_ne_nil ds)
      · rename_i s0 rest heq
        rcases List.mem_cons.mp hseg with h | h
        · subst h
          rcases List.mem_cons.mp hc with h2 | h2
          · subst h2
            exact ⟨List.mem_cons_self _ _, hd⟩
          · have := @ih s0 (by rw [heq]; exact List.mem_cons_self _ _) h2
            exact ⟨List.mem_cons_of_mem _ this.1, this.2⟩
        · have := @ih seg (by rw [heq]; exact List.mem_cons_of_mem _ h) hc
          exact ⟨List.mem_cons_of_mem _ this.1, this.2⟩

theorem splitDots_of_no_dot {cs : List Char} (h : '.' ∉ cs) : splitDots cs = [cs] := by
  induction cs with
  | nil => rfl
  | cons c cs ih =>
    have hc : c ≠ '.' := fun e => h (by rw [e]; exact List.mem_cons_self _ _)
    have hcs : '.' ∉ cs := fun e => h (List.mem_cons_of_mem _ e)
    unfold splitDots
    rw [if_neg hc, ih hcs]

theorem length_splitDots_of_dot {cs : List Char} (h : '.' ∈ cs) :
    2 ≤ (splitDots cs).length := by
  induction cs with
  | nil => simp at h
  | cons c cs ih =>
    unfold splitDots
    by_cases hc : c = '.'
    · rw [if_pos hc]
      have := List.length_pos.mpr (splitDots_ne_nil cs)
      simp only [List.length_cons]
      omega
    · rw [if_neg hc]
      have hcs : '.' ∈ cs := by
        rcases List.mem_cons.mp h with e | e
        · exact absurd e.symm hc
        · exact e
      have := ih hcs
      split
      · rename_i heq
        rw [heq] at this
        simp at this
      · rename_i s0 rest heq
        rw [heq] at this
        simpa using this

theorem Split_ne_nil (s : String) : Split s ≠ [] := by
  unfold Split
  simp [splitDots_ne_nil]

/-- A segment of a lower-cased key is its own lower-casing. -/
theorem toLower_segment {key seg : String} (h : seg ∈ Split (toLower L key)) :
    toLower L seg = seg := by
  unfold Split at h
  obtain ⟨cs, hcs, rfl⟩ := List.mem_map.mp h
  unfold toLower
  congr 1
  show List.map L.lower cs = cs
  have : ∀ c ∈ cs, L.lower c = c := by
    intro c hc
    have hmem := (mem_splitDots hcs hc).1
    rw [toLower_data] at hmem
    obtain ⟨d, _, rfl⟩ := List.mem_map.mp hmem
    exact L.idem d
  calc List.map L.lower cs = List.map id cs := List.map_congr_left this
    _ = cs := List.map_id cs

/-- No segment of a split key contains a dot. -/
theorem no_dot_of_mem_Split {s seg : String} (h : seg ∈ Split s) : '.' ∉ seg.data := by
  unfold Split at h
  obtain ⟨cs, hcs, rfl⟩ := List.mem_map.mp h
  intro hd
  exact (mem_splitDots hcs hd).2 rfl

theorem dot_mem_toLower {k : String} : '.' ∈ (toLower L k).data ↔ '.' ∈ k.data := by
  rw [toLower_data]
  constructor
  · intro h
    obtain ⟨d, hd, he⟩ := List.mem_map.mp h
    rw [L.dot d he] at hd
    exact hd
  · intro h
    exact List.mem_map.mpr ⟨'.', h, lower_dot L⟩

/-! ## Lemmas: maps -/

theorem lookup_insert_self (m : StrMap) (k : String) (v : Value) :
    lookup (insert m k v) k = some v := by
  induction m with
  | nil => simp [insert, lookup]
  | cons hd tl ih =>
    obtain ⟨k0, v0⟩ := hd
    unfold insert
    by_cases h : k0 = k
    · rw [if_pos h]; simp [lookup]
    · rw [if_neg h]; simp [lookup, h, ih]

theorem lookup_insert_ne (m : StrMap) {k k2 : String} (v : Value) (h : k ≠ k2) :
    lookup (insert m k v) k2 = lookup m k2 := by
  induction m with
  | nil => simp [insert, lookup, h]
  | cons hd tl ih =>
    obtain ⟨k0, v0⟩ := hd
    unfold insert
    by_cases h0 : k0 = k
    · rw [if_pos h0]
      subst h0
      simp [lookup, h]
    · rw [if_neg h0]
      by_cases h1 : k0 = k2
      · simp [lookup, h1]
      · simp [lookup, h1, ih]

/-- Reading the root along `path` after `writeBack` reaches the map written. -/
theorem getPath_writeBack (m : StrMap) (path : List String) (d : StrMap) :
    getPath (.map (writeBack m path d)) path = some (.map d) := by
  induction path generalizing m with
  | nil => rfl
  | cons k path ih =>
    unfold writeBack
    split <;> simp only [getPath, lookup_insert_self, ih]

/-- The map `deepSearch` returns is the one that reading the root along `path`
reaches once `deepSearch` has made its insertions. -/
theorem getPath_writeBack_deepSearch (m : StrMap) (path : List String) :
    getPath (.map (writeBack m path (deepSearch m path))) path
      = some (.map (deepSearch m path)) :=
  getPath_writeBack m path _

theorem getPath_append (v : Value) (p q : List String) :
    getPath v (p ++ q) = (getPath v p).bind (fun w => getPath w q) := by
  induction p generalizing v with
  | nil => simp [getPath]
  | cons k p ih =>
    cases v with
    | map m =>
      simp only [List.cons_append, getPath]
      cases lookup m k with
      | none => rfl
      | some w => exact ih w
    | str s => simp [getPath]
    | int n => simp [getPath]
    | bool b => simp [getPath]
    | strs m2 => simp [getPath]

/-- The result of `SetDefault`, with the last segment of the key named. -/
theorem SetDefault_eq (store : StrMap) (key : String) (v : Value) :
    ∃ last, (Split (toLower L key)).getLast? = some last ∧
      Split (toLower L key) = (Split (toLower L key)).dropLast ++ [last] ∧
      SetDefault L store key v = some (writeBack store (Split (toLower L key)).dropLast
        (insert (deepSearch store (Split (toLower L key)).dropLast) last
          (toCaseInsensitiveValue L v))) := by
  have hne := Split_ne_nil (toLower L key)
  refine ⟨(Split (toLower L key)).getLast hne, List.getLast?_eq_getLast _ hne,
    (List.dropLast_append_getLast hne).symm, ?_⟩
  have hlow : toLower L ((Split (toLower L key)).getLast hne) = (Split (toLower L key)).getLast hne :=
    toLower_segment (List.getLast_mem hne)
  unfold SetDefault
  simp only [List.getLast?_eq_getLast _ hne, hlow]

mutual
/-- On a value with ASCII keys every table gives the copy of `asciiLower`. -/
theorem toCaseInsensitiveValue_of_asciiKeys (L : Lowering) :
    ∀ v : Value, asciiKeys v = true →
      toCaseInsensitiveValue L v = toCaseInsensitiveValue asciiLower v
  | .map m, h => by
    rw [asciiKeys] at h
    rw [toCaseInsensitiveValue, toCaseInsensitiveValue, copyLoop_of_asciiKeys L m [] h]
  | .str _, _ => rfl
  | .int _, _ => rfl
  | .bool _, _ => rfl
  | .strs _, _ => rfl
/-- On entries with ASCII keys every table runs the copy loop alike. -/
theorem copyLoop_of_asciiKeys (L : Lowering) :
    ∀ (m nm : StrMap), asciiKeys.asciiKeysAll m = true →
      copyLoop L m nm = copyLoop asciiLower m nm
  | [], nm, _ => by rw [copyLoop, copyLoop]
  | (key, val) :: rest, nm, h => by
    simp only [asciiKeys.asciiKeysAll, Bool.and_eq_true] at h
    rw [copyLoop, copyLoop, toLower_of_isAscii L h.1.1,
      toCaseInsensitiveValue_of_asciiKeys L val h.1.2, copyLoop_of_asciiKeys L rest _ h.2]
end

/-- On an ASCII key and a value with ASCII keys `SetDefault` does not depend on
the table. -/
theorem SetDefault_of_ascii (L : Lowering) (store : StrMap) {key : String} {v : Value}
    (hk : isAscii key = true) (hv : asciiKeys v = true) :
    SetDefault L store key v = SetDefault asciiLower store key v := by
  obtain ⟨last, hl, _, h⟩ := @SetDefault_eq L store key v
  obtain ⟨last2, hl2, _, h2⟩ := @SetDefault_eq asciiLower store key v
  rw [toLower_of_isAscii L hk] at hl h
  have : last = last2 := Option.some.inj (hl.symm.trans hl2)
  subst this
  rw [h, h2, toCaseInsensitiveValue_of_asciiKeys L v hv]

/-- On an ASCII key `Get` does not depend on the table. -/
theorem Get_of_ascii (L : Lowering) (env : Env) (store : StrMap) {key : String}
    (hk : isAscii key = true) : Get L env store key = Get asciiLower env store key := by
  unfold Get
  rw [toLower_of_isAscii L hk]

theorem Getenv_of_none {env : Env} {name : String} (h : env name = none) :
    Getenv env name = "" := by
  unfold Getenv; rw [h]

theorem Getenv_of_some {env : Env} {name val : String} (h : env name = some val) :
    Getenv env name = val := by
  unfold Getenv; rw [h]

theorem Get_of_env {env : Env} (store : StrMap) {key : String}
    (h : Getenv env (toLower L key) ≠ "") : Get L env store key = .str (Getenv env (toLower L key)) := by
  unfold Get
  simp only [if_neg h]

theorem Get_of_env_some {env : Env} (store : StrMap) {key e : String}
    (he : e ≠ "") (hset : env (toLower L key) = some e) : Get L env store key = .str e := by
  have h := Getenv_of_some hset
  rw [Get_of_env store (by rw [h]; exact he), h]

theorem Get_of_lookup {env : Env} {store : StrMap} {key : String} {v : Value}
    (h : Getenv env (toLower L key) = "") (hv : lookup store (toLower L key) = some v) :
    Get L env store key = v := by
  unfold Get
  simp only [h, if_true, hv]

theorem Get_of_absent {env : Env} {store : StrMap} {key : String}
    (h : Getenv env (toLower L key) = "") (hv : lookup store (toLower L key) = none) :
    Get L env store key = .str "" := by
  unfold Get
  simp only [h, if_true, hv]

/-- A key without a dot is written at the top level of the store. -/
theorem SetDefault_of_no_dot (store : StrMap) {key : String} (v : Value)
    (h : '.' ∉ key.data) :
    SetDefault L store key v
      = some (insert store (toLower L key) (toCaseInsensitiveValue L v)) := by
  have hs : Split (toLower L key) = [toLower L key] := by
    unfold Split
    rw [splitDots_of_no_dot (fun e => h (dot_mem_toLower.mp e))]
    rfl
  obtain ⟨last, hlast, _, heq⟩ := SetDefault_eq store key v
  rw [hs] at hlast heq
  simp only [List.getLast?_singleton, Option.some.injEq] at hlast
  subst hlast
  rw [heq]
  rfl

theorem toCaseInsensitiveValue_of_not_map {v : Value} (h : ∀ m, v ≠ .map m) :
    toCaseInsensitiveValue L v = v := by
  cases v with
  | map m => exact absurd rfl (h m)
  | str s => rfl
  | int n => rfl
  | bool b => rfl
  | strs m2 => rfl

theorem getPath_map_source {w : Value} {q : List String} {d : StrMap}
    (h : getPath w q = some (.map d)) : ∃ d2, w = .map d2 := by
  cases q with
  | nil =>
    simp only [getPath, Option.some.injEq] at h
    exact ⟨d, h⟩
  | cons k q =>
    cases w with
    | map m => exact ⟨m, rfl⟩
    | str s => simp [getPath] at h
    | int n => simp [getPath] at h
    | bool b => simp [getPath] at h
    | strs m2 => simp [getPath] at h

/-- Reading a path that ends in a map finds a map after every number of steps. -/
theorem getPath_take_map {v : Value} {p : List String} {d : StrMap}
    (h : getPath v p = some (.map d)) (i : Nat) :
    ∃ d2, getPath v (p.take i) = some (.map d2) := by
  have hsplit : getPath v (p.take i ++ p.drop i) = some (.map d) := by
    rw [List.take_append_drop]; exact h
  rw [getPath_append] at hsplit
  cases hw : getPath v (p.take i) with
  | none => rw [hw] at hsplit; simp at hsplit
  | some w =>
    rw [hw] at hsplit
    simp only [Option.some_bind] at hsplit
    obtain ⟨d2, rfl⟩ := getPath_map_source hsplit
    exact ⟨d2, rfl⟩

/-- After `SetDefault` the store read along all but the last segment of the key
reaches a map that holds the normalised value under the last segment. -/
theorem SetDefault_getPath (store : StrMap) (key : String) (v : Value) :
    ∃ s last d, SetDefault L store key v = some s
      ∧ Split (toLower L key) = (Split (toLower L key)).dropLast ++ [last]
      ∧ getPath (.map s) (Split (toLower L key)).dropLast = some (.map d)
      ∧ lookup d last = some (toCaseInsensitiveValue L v) := by
  obtain ⟨last, _, hsplit, heq⟩ := SetDefault_eq store key v
  exact ⟨_, last, _, heq, hsplit, getPath_writeBack _ _ _, lookup_insert_self _ _ _⟩

theorem getPath_snoc {v : Value} {p : List String} {k : String} {d : StrMap} {w : Value}
    (hp : getPath v p = some (.map d)) (hk : lookup d k = some w) :
    getPath v (p ++ [k]) = some w := by
  rw [getPath_append, hp]
  simp only [Option.some_bind, getPath, hk]

theorem keys_insert (m : StrMap) (k : String) (v : Value) (x : String) :
    x ∈ keys (insert m k v) ↔ x ∈ keys m ∨ x = k := by
  induction m with
  | nil => simp [insert, keys]
  | cons hd tl ih =>
    obtain ⟨k0, v0⟩ := hd
    unfold insert
    by_cases h : k0 = k
    · rw [if_pos h]
      subst h
      simp only [keys, List.map_cons, List.mem_cons]
      tauto
    · rw [if_neg h]
      simp only [keys, List.map_cons, List.mem_cons] at ih ⊢
      rw [ih]
      tauto

theorem allKeysLowerMap_insert {m : StrMap} {k : String} {v : Value}
    (hm : allKeysLower.allKeysLowerMap L m = true) (hk : toLower L k = k)
    (hv : allKeysLower L v = true) :
    allKeysLower.allKeysLowerMap L (insert m k v) = true := by
  induction m with
  | nil => simp [insert, allKeysLower.allKeysLowerMap, hk, hv]
  | cons hd tl ih =>
    obtain ⟨k0, v0⟩ := hd
    simp only [allKeysLower.allKeysLowerMap, Bool.and_eq_true, decide_eq_true_eq] at hm
    unfold insert
    by_cases h : k0 = k
    · rw [if_pos h]
      simp [allKeysLower.allKeysLowerMap, hk, hv, hm.2]
    · rw [if_neg h]
      simp [allKeysLower.allKeysLowerMap, hm.1.1, hm.1.2, ih hm.2]

mutual
/-- Every key of a normalised value without a `map[string]string` is
lower-case, at every level. -/
theorem allKeysLower_toCaseInsensitiveValue :
    ∀ v : Value, noTyped v = true → allKeysLower L (toCaseInsensitiveValue L v) = true
  | .map m, h => by
    rw [toCaseInsensitiveValue, allKeysLower]
    rw [noTyped] at h
    exact allKeysLowerMap_copyLoop m [] h rfl
  | .str _, _ => rfl
  | .int _, _ => rfl
  | .bool _, _ => rfl
  | .strs _, h => by simp [noTyped] at h
/-- The copy loop keeps every key of the map it builds lower-case. -/
theorem allKeysLowerMap_copyLoop :
    ∀ (m nm : StrMap), noTyped.noTypedAll m = true →
      allKeysLower.allKeysLowerMap L nm = true →
      allKeysLower.allKeysLowerMap L (copyLoop L m nm) = true
  | [], nm, _, h => by rw [copyLoop]; exact h
  | (key, val) :: rest, nm, hp, h => by
    rw [copyLoop]
    simp only [noTyped.noTypedAll, Bool.and_eq_true] at hp
    exact allKeysLowerMap_copyLoop rest _ hp.2
      (allKeysLowerMap_insert h (toLower_idem L key)
        (allKeysLower_toCaseInsensitiveValue val hp.1))
end

theorem keys_copyLoop (m nm : StrMap) (x : String) :
    x ∈ keys (copyLoop L m nm) ↔ x ∈ keys nm ∨ x ∈ (keys m).map (toLower L) := by
  induction m generalizing nm with
  | nil => simp [copyLoop, keys]
  | cons hd tl ih =>
    obtain ⟨k0, v0⟩ := hd
    rw [copyLoop, ih, keys_insert]
    simp only [keys, List.map_cons, List.mem_cons]
    tauto

theorem lookup_copyLoop_of_not_mem (m nm : StrMap) {x : String}
    (h : x ∉ (keys m).map (toLower L)) : lookup (copyLoop L m nm) x = lookup nm x := by
  induction m generalizing nm with
  | nil => rw [copyLoop]
  | cons hd tl ih =>
    obtain ⟨k0, v0⟩ := hd
    simp only [keys, List.map_cons, List.mem_cons, not_or] at h
    rw [copyLoop, ih _ (by simpa [keys] using h.2)]
    exact lookup_insert_ne _ _ (fun e => h.1 e.symm)

/-- Every entry the copy loop leaves in the map it builds was there before or
is the normalised value of an entry of the original under the lower-cased key. -/
theorem lookup_copyLoop_source (m nm : StrMap) {x : String} {w : Value}
    (h : lookup (copyLoop L m nm) x = some w) :
    lookup nm x = some w
      ∨ ∃ k v, (k, v) ∈ m ∧ toLower L k = x ∧ w = toCaseInsensitiveValue L v := by
  induction m generalizing nm with
  | nil => rw [copyLoop] at h; exact Or.inl h
  | cons hd tl ih =>
    obtain ⟨k0, v0⟩ := hd
    rw [copyLoop] at h
    rcases ih _ h with h1 | ⟨k, v, hmem, hk, hw⟩
    · by_cases hx : toLower L k0 = x
      · subst hx
        rw [lookup_insert_self] at h1
        exact Or.inr ⟨k0, v0, List.mem_cons_self _ _, rfl, (Option.some.inj h1).symm⟩
      · rw [lookup_insert_ne _ _ hx] at h1
        exact Or.inl h1
    · exact Or.inr ⟨k, v, List.mem_cons_of_mem _ hmem, hk, hw⟩

/-- When no two keys of the original coincide after lower-casing, each entry is
found, normalised, under its lower-cased key. -/
theorem lookup_copyLoop_of_nodup (m nm : StrMap) (hnd : ((keys m).map (toLower L)).Nodup)
    {k : String} {v : Value} (hmem : (k, v) ∈ m) :
    lookup (copyLoop L m nm) (toLower L k) = some (toCaseInsensitiveValue L v) := by
  induction m generalizing nm with
  | nil => simp at hmem
  | cons hd tl ih =>
    obtain ⟨k0, v0⟩ := hd
    simp only [keys, List.map_cons, List.nodup_cons] at hnd
    rw [copyLoop]
    rcases List.mem_cons.mp hmem with e | e
    · simp only [Prod.mk.injEq] at e
      obtain ⟨rfl, rfl⟩ := e
      rw [lookup_copyLoop_of_not_mem _ _ (by simpa [keys] using hnd.1)]
      exact lookup_insert_self _ _ _
    · exact ih _ (by simpa [keys] using hnd.2) e

mutual
/-- The normalised value is the original with lower-cased keys at every level. -/
theorem keyNormalised_toCaseInsensitiveValue :
    ∀ v : Value, KeyNormalised L v (toCaseInsensitiveValue L v)
  | .map m => by
    rw [toCaseInsensitiveValue, KeyNormalised]
    refine ⟨fun x => by simpa [keys] using keys_copyLoop m [] x, ?_⟩
    intro x w h
    rcases lookup_copyLoop_source m [] h with h0 | ⟨k, v, hmem, hk, hw⟩
    · simp [lookup] at h0
    · subst hk hw
      exact hasSource_of_mem m k v hmem
  | .str _ => by simp [toCaseInsensitiveValue, KeyNormalised]
  | .int _ => by simp [toCaseInsensitiveValue, KeyNormalised]
  | .bool _ => by simp [toCaseInsensitiveValue, KeyNormalised]
  | .strs _ => by simp [toCaseInsensitiveValue, KeyNormalised]
/-- An entry of the original is a source of its normalised value. -/
theorem hasSource_of_mem :
    ∀ (m : StrMap) (k : String) (v : Value), (k, v) ∈ m →
      HasSource L m (toLower L k) (toCaseInsensitiveValue L v)
  | [], _, _, h => by simp at h
  | (k0, v0) :: rest, k, v, h => by
    rw [HasSource]
    rcases List.mem_cons.mp h with e | e
    · simp only [Prod.mk.injEq] at e
      obtain ⟨rfl, rfl⟩ := e
      exact Or.inl ⟨rfl, keyNormalised_toCaseInsensitiveValue _⟩
    · exact Or.inr (hasSource_of_mem rest k v e)
end

/-- After `SetDefault` the store read along the segments of the key reaches the
normalised value. -/
theorem SetDefault_getPath_full (store : StrMap) (key : String) (v : Value) :
    ∃ s, SetDefault L store key v = some s
      ∧ getPath (.map s) (Split (toLower L key)) = some (toCaseInsensitiveValue L v) := by
  obtain ⟨s, last, d, hs, hsplit, hpath, hlast⟩ := SetDefault_getPath store key v
  refine ⟨s, hs, ?_⟩
  rw [hsplit]
  exact getPath_snoc hpath hlast

theorem deepSearch_nil (path : List String) : deepSearch [] path = [] := by
  induction path with
  | nil => rfl
  | cons k path ih => simp only [deepSearch, lookup, ih]

theorem writeBack_nil (path : List String) (d : StrMap) :
    Value.map (writeBack [] path d) = singletonPath path (.map d) := by
  induction path with
  | nil => rfl
  | cons k path ih => simp only [writeBack, lookup, insert, singletonPath, ih]

theorem singletonPath_append (p q : List String) (v : Value) :
    singletonPath (p ++ q) v = singletonPath p (singletonPath q v) := by
  induction p with
  | nil => rfl
  | cons k p ih =>
    show Value.map [(k, singletonPath (p ++ q) v)] = _
    rw [ih]
    rfl

theorem singletonPath_ne_of_not_map {rest : List String} (hrest : rest ≠ []) (v : Value)
    {w : Value} (hw : ∀ m, w ≠ .map m) : singletonPath rest v ≠ w := by
  cases rest with
  | nil => exact absurd rfl hrest
  | cons k rest => exact fun e => hw _ e.symm

/-- When reading `pre`, then `k`, reaches a value that is not a map,
`deepSearch` along `pre`, `k`, `q` continues from a new empty map put under
`k`. -/
theorem deepSearch_writeBack_of_not_map (m : StrMap) (pre : List String) (k : String)
    (q : List String) (d : StrMap) {w : Value}
    (hread : getPath (.map m) (pre ++ [k]) = some w) (hw : ∀ m2, w ≠ .map m2) :
    deepSearch m (pre ++ k :: q) = deepSearch [] q
      ∧ getPath (.map (writeBack m (pre ++ k :: q) d)) (pre ++ [k])
          = some (.map (writeBack [] q d)) := by
  induction pre generalizing m with
  | nil =>
    simp only [List.nil_append, getPath] at hread
    cases hl : lookup m k with
    | none => rw [hl] at hread; simp at hread
    | some w2 =>
      rw [hl] at hread
      simp only [Option.some.injEq] at hread
      subst hread
      cases w2 with
      | map m2 => exact absurd rfl (hw m2)
      | str s => simp [deepSearch, writeBack, hl, getPath, lookup_insert_self]
      | int n => simp [deepSearch, writeBack, hl, getPath, lookup_insert_self]
      | bool b => simp [deepSearch, writeBack, hl, getPath, lookup_insert_self]
      | strs m2 => simp [deepSearch, writeBack, hl, getPath, lookup_insert_self]
  | cons p pre ih =>
    simp only [List.cons_append, getPath] at hread
    cases hl : lookup m p with
    | none => rw [hl] at hread; simp at hread
    | some w2 =>
      rw [hl] at hread
      simp only at hread
      cases w2 with
      | map m2 =>
        have := ih m2 hread
        simp only [List.cons_append, deepSearch, writeBack, hl, getPath, lookup_insert_self]
        exact this
      | str s => cases pre <;> simp [getPath] at hread
      | int n => cases pre <;> simp [getPath] at hread
      | bool b => cases pre <;> simp [getPath] at hread
      | strs m2 => cases pre <;> simp [getPath] at hread

theorem allKeysLower_of_lookup {m : StrMap} {k : String} {v : Value}
    (hm : allKeysLower.allKeysLowerMap L m = true) (h : lookup m k = some v) :
    allKeysLower L v = true := by
  induction m with
  | nil => simp [lookup] at h
  | cons hd tl ih =>
    obtain ⟨k0, v0⟩ := hd
    simp only [allKeysLower.allKeysLowerMap, Bool.and_eq_true, decide_eq_true_eq] at hm
    unfold lookup at h
    by_cases hk : k0 = k
    · rw [if_pos hk] at h
      rw [← Option.some.inj h]
      exact hm.1.2
    · rw [if_neg hk] at h
      exact ih hm.2 h

theorem allKeysLowerMap_deepSearch (m : StrMap) (path : List String)
    (hm : allKeysLower.allKeysLowerMap L m = true) :
    allKeysLower.allKeysLowerMap L (deepSearch m path) = true := by
  induction path generalizing m with
  | nil => exact hm
  | cons k path ih =>
    unfold deepSearch
    split
    · exact ih [] rfl
    · rename_i m3 hl
      have := allKeysLower_of_lookup hm hl
      rw [allKeysLower] at this
      exact ih m3 this
    · exact ih [] rfl

theorem allKeysLowerMap_writeBack (m : StrMap) (path : List String) (d : StrMap)
    (hm : allKeysLower.allKeysLowerMap L m = true)
    (hpath : ∀ k ∈ path, toLower L k = k)
    (hd : allKeysLower.allKeysLowerMap L d = true) :
    allKeysLower.allKeysLowerMap L (writeBack m path d) = true := by
  induction path generalizing m with
  | nil => exact hd
  | cons k path ih =>
    have hk : toLower L k = k := hpath k (List.mem_cons_self _ _)
    have hrest : ∀ k2 ∈ path, toLower L k2 = k2 := fun k2 h => hpath k2 (List.mem_cons_of_mem _ h)
    unfold writeBack
    split
    · refine allKeysLowerMap_insert hm hk ?_
      rw [allKeysLower]
      exact ih [] rfl hrest
    · rename_i m3 hl
      have h3 := allKeysLower_of_lookup hm hl
      rw [allKeysLower] at h3
      refine allKeysLowerMap_insert hm hk ?_
      rw [allKeysLower]
      exact ih m3 h3 hrest
    · refine allKeysLowerMap_insert hm hk ?_
      rw [allKeysLower]
      exact ih [] rfl hrest

/-- One `SetDefault` of a value without a `map[string]string` keeps every key of
the store lower-case. -/
theorem allKeysLowerMap_SetDefault {store s : StrMap} {key : String} {v : Value}
    (hm : allKeysLower.allKeysLowerMap L store = true) (hv : noTyped v = true)
    (hs : SetDefault L store key v = some s) :
    allKeysLower.allKeysLowerMap L s = true := by
  obtain ⟨last, hlast, hsplit, heq⟩ := @SetDefault_eq L store key v
  rw [heq] at hs
  rw [← Option.some.inj hs]
  have hlmem : last ∈ Split (toLower L key) := by
    rw [hsplit]; simp
  refine allKeysLowerMap_writeBack _ _ _ hm ?_ ?_
  · intro k hk
    exact toLower_segment (List.dropLast_subset _ hk)
  · exact allKeysLowerMap_insert (allKeysLowerMap_deepSearch _ _ hm)
      (toLower_segment hlmem) (allKeysLower_toCaseInsensitiveValue v hv)

/-- In every store reachable by `SetDefault` calls whose values contain no
`map[string]string`, every key at every nesting level is lower-case. -/
theorem allKeysLower_of_plainReachable {s : StrMap} (h : PlainReachable L s) :
    allKeysLower L (.map s) = true := by
  rw [allKeysLower]
  induction h with
  | empty => rfl
  | step key v _ hv hs ih => exact allKeysLowerMap_SetDefault ih hv hs

theorem getPath_nil_map_cons (k : String) (path : List String) :
    getPath (.map []) (k :: path) = none := by
  simp [getPath, lookup]

theorem getPath_of_not_map_cons {w : Value} (hw : ∀ m, w ≠ .map m) (k : String)
    (path : List String) : getPath w (k :: path) = none := by
  cases w with
  | map m => exact absurd rfl (hw m)
  | str s => rfl
  | int n => rfl
  | bool b => rfl
  | strs m2 => rfl

theorem deepSearch_cons (m : StrMap) (k : String) (path : List String) :
    deepSearch m (k :: path) = deepSearch (nextMap (lookup m k)) path := by
  rw [deepSearch]
  split
  · rename_i h; rw [h]; rfl
  · rename_i m3 h; rw [h]; rfl
  · rename_i w hw h
    rw [h]
    cases w with
    | map m3 => exact absurd rfl (hw m3)
    | str s => rfl
    | int n => rfl
    | bool b => rfl
    | strs m2 => rfl

theorem writeBack_cons (m : StrMap) (k : String) (path : List String) (d : StrMap) :
    writeBack m (k :: path) d
      = insert m k (.map (writeBack (nextMap (lookup m k)) path d)) := by
  rw [writeBack]
  split
  · rename_i h; rw [h]; rfl
  · rename_i m3 h; rw [h]; rfl
  · rename_i w hw h
    rw [h]
    cases w with
    | map m3 => exact absurd rfl (hw m3)
    | str s => rfl
    | int n => rfl
    | bool b => rfl
    | strs m2 => rfl

theorem getPath_cons_of_ne_nil (m : StrMap) (k : String) {path : List String}
    (hp : path ≠ []) :
    getPath (.map m) (k :: path) = getPath (.map (nextMap (lookup m k))) path := by
  obtain ⟨k2, p2, rfl⟩ : ∃ k2 p2, path = k2 :: p2 := by
    cases path with
    | nil => exact absurd rfl hp
    | cons k2 p2 => exact ⟨k2, p2, rfl⟩
  rw [getPath]
  cases hl : lookup m k with
  | none => exact (getPath_nil_map_cons k2 p2).symm
  | some w =>
    cases w with
    | map m3 => rfl
    | str s => exact (getPath_nil_map_cons k2 p2).symm
    | int n => exact (getPath_nil_map_cons k2 p2).symm
    | bool b => exact (getPath_nil_map_cons k2 p2).symm
    | strs m2 => exact (getPath_nil_map_cons k2 p2).symm

theorem deepSearch_append (m : StrMap) (p q : List String) :
    deepSearch m (p ++ q) = deepSearch (deepSearch m p) q := by
  induction p generalizing m with
  | nil => rfl
  | cons k p ih =>
    rw [List.cons_append, deepSearch_cons, deepSearch_cons, ih]

theorem writeBack_append (m : StrMap) (p q : List String) (d : StrMap) :
    writeBack m (p ++ q) d = writeBack m p (writeBack (deepSearch m p) q d) := by
  induction p generalizing m with
  | nil => rfl
  | cons k p ih =>
    rw [List.cons_append, writeBack_cons, writeBack_cons, deepSearch_cons, ih]

/-- The map `writeBack` stores under the first key of a path. -/
theorem writeBack_cons_eq_insert (m : StrMap) (k : String) (path : List String) (d : StrMap) :
    ∃ X, writeBack m (k :: path) d = insert m k X :=
  ⟨_, writeBack_cons m k path d⟩

/-- The frame of `writeBack`: a path that leaves the written path `c` by a key
`x` whose entry in the map written is the one of the map found there reads as
before. -/
theorem getPath_writeBack_frame (m : StrMap) (c : List String) (x : String)
    (r : List String) (d : StrMap) (hd : lookup d x = lookup (deepSearch m c) x) :
    getPath (.map (writeBack m c d)) (c ++ x :: r) = getPath (.map m) (c ++ x :: r) := by
  induction c generalizing m with
  | nil =>
    simp only [List.nil_append, writeBack, getPath, deepSearch] at hd ⊢
    rw [hd]
  | cons k c ih =>
    rw [deepSearch_cons] at hd
    rw [List.cons_append, getPath_cons_of_ne_nil _ _ (by simp),
      getPath_cons_of_ne_nil _ _ (by simp), writeBack_cons, lookup_insert_self]
    exact ih _ hd

/-- The result of `SetDefault` seen from any segment `y` of the key: the map
found or created along the segments `c` before it gets a new entry for `y`. -/
theorem SetDefault_at_segment (store : StrMap) (key : String) (v : Value)
    {c : List String} {y : String} {q : List String}
    (hsegs : Split (toLower L key) = c ++ y :: q) :
    ∃ X, SetDefault L store key v
      = some (writeBack store c (insert (deepSearch store c) y X)) := by
  obtain ⟨last, hlast, _, heq⟩ := SetDefault_eq store key v
  rw [hsegs] at hlast heq
  by_cases hq : q = []
  · subst hq
    rw [List.getLast?_concat] at hlast
    rw [List.dropLast_concat] at heq
    obtain rfl : y = last := Option.some.inj hlast
    exact ⟨_, heq⟩
  · obtain ⟨q2, z, rfl⟩ : ∃ q2 z, q = q2 ++ [z] :=
      ⟨q.dropLast, q.getLast hq, (List.dropLast_append_getLast hq).symm⟩
    have hassoc : c ++ y :: (q2 ++ [z]) = (c ++ y :: q2) ++ [z] := by simp
    rw [hassoc, List.dropLast_concat, writeBack_append] at heq
    obtain ⟨X, hX⟩ := writeBack_cons_eq_insert (deepSearch store c) y q2
      (insert (deepSearch store (c ++ y :: q2)) last (toCaseInsensitiveValue L v))
    rw [hX] at heq
    exact ⟨X, heq⟩

/-- The frame of `SetDefault`: a path that leaves the segments of the key by
another key reads the same value, or nothing, before and after. -/
theorem SetDefault_frame (store : StrMap) (key : String) (v : Value)
    {c : List String} {y : String} {q : List String}
    (hsegs : Split (toLower L key) = c ++ y :: q) {x : String} (hxy : x ≠ y)
    (r : List String) :
    ∃ s, SetDefault L store key v = some s
      ∧ getPath (.map s) (c ++ x :: r) = getPath (.map store) (c ++ x :: r) := by
  obtain ⟨X, hX⟩ := SetDefault_at_segment store key v hsegs
  refine ⟨_, hX, getPath_writeBack_frame store c x r _ ?_⟩
  exact lookup_insert_ne _ _ (fun e => hxy e.symm)

/-- Two paths: one starts the other, or they part at some key. -/
theorem path_trichotomy (p segs : List String) :
    (∃ r, segs = p ++ r) ∨ (∃ r, r ≠ [] ∧ p = segs ++ r)
      ∨ ∃ c x y r q, x ≠ y ∧ p = c ++ x :: r ∧ segs = c ++ y :: q := by
  induction p generalizing segs with
  | nil => exact Or.inl ⟨segs, rfl⟩
  | cons a p ih =>
    cases segs with
    | nil => exact Or.inr (Or.inl ⟨a :: p, by simp, rfl⟩)
    | cons b segs =>
      by_cases hab : a = b
      · subst hab
        rcases ih segs with ⟨r, hr⟩ | ⟨r, hr, hp⟩ | ⟨c, x, y, r, q, hxy, hp, hs⟩
        · exact Or.inl ⟨r, by rw [hr]; rfl⟩
        · exact Or.inr (Or.inl ⟨r, hr, by rw [hp]; rfl⟩)
        · exact Or.inr (Or.inr ⟨a :: c, x, y, r, q, hxy, by rw [hp]; rfl, by rw [hs]; rfl⟩)
      · exact Or.inr (Or.inr ⟨[], a, b, p, segs, hab, rfl, rfl⟩)

theorem getPath_isSome_of_append {v : Value} {p r : List String} {w : Value}
    (h : getPath v (p ++ r) = some w) : ∃ w2, getPath v p = some w2 := by
  rw [getPath_append] at h
  cases hp : getPath v p with
  | none => rw [hp] at h; simp at h
  | some w2 => exact ⟨w2, rfl⟩

theorem deepSearch_of_getPath {m : StrMap} {path : List String} {d : StrMap}
    (h : getPath (.map m) path = some (.map d)) : deepSearch m path = d := by
  induction path generalizing m with
  | nil =>
    simp only [getPath, Option.some.injEq, Value.map.injEq] at h
    exact h
  | cons k path ih =>
    rw [getPath] at h
    cases hl : lookup m k with
    | none => rw [hl] at h; simp at h
    | some w =>
      rw [hl] at h
      obtain ⟨m3, rfl⟩ := getPath_map_source h
      rw [deepSearch_cons, hl]
      exact ih h

theorem insert_insert (m : StrMap) (k : String) (v w : Value) :
    insert (insert m k v) k w = insert m k w := by
  induction m with
  | nil => simp [insert]
  | cons hd tl ih =>
    obtain ⟨k0, v0⟩ := hd
    by_cases h : k0 = k
    · simp [insert, h]
    · simp [insert, h, ih]

theorem deepSearch_writeBack (m : StrMap) (path : List String) (d : StrMap) :
    deepSearch (writeBack m path d) path = d :=
  deepSearch_of_getPath (getPath_writeBack m path d)

theorem writeBack_writeBack (m : StrMap) (path : List String) (d d2 : StrMap) :
    writeBack (writeBack m path d) path d2 = writeBack m path d2 := by
  induction path generalizing m with
  | nil => rfl
  | cons k path ih =>
    rw [writeBack_cons m, writeBack_cons, lookup_insert_self, insert_insert, writeBack_cons m]
    show insert m k (.map (writeBack (writeBack (nextMap (lookup m k)) path d) path d2)) = _
    rw [ih]

/-- The second of two `SetDefault` calls on one key decides the store. -/
theorem SetDefault_twice (store : StrMap) (key : String) (v1 v2 : Value) :
    ∃ s1 s2, SetDefault L store key v1 = some s1 ∧ SetDefault L s1 key v2 = some s2
      ∧ SetDefault L store key v2 = some s2 := by
  obtain ⟨last, hl1, _, h1⟩ := SetDefault_eq store key v1
  obtain ⟨last2, hl2, _, h2⟩ := SetDefault_eq store key v2
  obtain ⟨last3, hl3, _, h3⟩ := SetDefault_eq
    (writeBack store (Split (toLower L key)).dropLast
      (insert (deepSearch store (Split (toLower L key)).dropLast) last
        (toCaseInsensitiveValue L v1))) key v2
  have e2 : last2 = last := Option.some.inj (hl2.symm.trans hl1)
  have e3 : last3 = last := Option.some.inj (hl3.symm.trans hl1)
  subst e2 e3
  refine ⟨_, _, h1, h3, ?_⟩
  rw [h2, deepSearch_writeBack, writeBack_writeBack, insert_insert]

theorem getPath_singleton (m : StrMap) (x : String) :
    getPath (.map m) [x] = lookup m x := by
  rw [getPath]
  cases lookup m x with
  | none => rfl
  | some w => cases w <;> rfl

theorem lookup_eq_none_of_not_mem_keys {m : StrMap} {x : String} (h : x ∉ keys m) :
    lookup m x = none := by
  induction m with
  | nil => rfl
  | cons hd tl ih =>
    obtain ⟨k0, v0⟩ := hd
    simp only [keys, List.map_cons, List.mem_cons, not_or] at h
    unfold lookup
    rw [if_neg (fun e => h.1 e.symm)]
    exact ih (by simpa [keys] using h.2)

/-- Every top-level key after `SetDefault` was one before or is the first
segment of the lower-cased key. -/
theorem keys_SetDefault {store s : StrMap} {key : String} {v : Value}
    (hs : SetDefault L store key v = some s) {x : String} (hx : x ∈ keys s) :
    x ∈ keys store ∨ (Split (toLower L key)).head? = some x := by
  cases hsp : Split (toLower L key) with
  | nil => exact absurd hsp (Split_ne_nil _)
  | cons first rest =>
    obtain ⟨X, hX⟩ := SetDefault_at_segment store key v
      (show Split (toLower L key) = [] ++ first :: rest from hsp)
    rw [hX] at hs
    rw [← Option.some.inj hs] at hx
    simp only [writeBack, deepSearch] at hx
    rcases (keys_insert _ _ _ _).mp hx with h | h
    · exact Or.inl h
    · exact Or.inr (by rw [h]; rfl)

theorem no_dot_keys_of_reachable {s : StrMap} (h : Reachable L s) :
    ∀ x ∈ keys s, '.' ∉ x.data := by
  induction h with
  | empty => intro x hx; simp [keys] at hx
  | step key v _ hs ih =>
    intro x hx
    rcases keys_SetDefault hs hx with h | h
    · exact ih x h
    · exact no_dot_of_mem_Split (List.mem_of_mem_head? h)

theorem parseBool_eq_true_iff (s : String) :
    parseBool s = true
      ↔ s = "1" ∨ s = "t" ∨ s = "T" ∨ s = "TRUE" ∨ s = "true" ∨ s = "True" := by
  unfold parseBool
  simp

/-! ## Lemmas: one map in two orders -/

theorem getPath_nil (v : Value) : getPath v [] = some v := by
  cases v <;> rfl

theorem getPath_map_cons (m : StrMap) (k : String) (p : List String) :
    getPath (.map m) (k :: p) = (lookup m k).bind (fun w => getPath w p) := by
  rw [getPath]
  cases lookup m k <;> rfl

theorem shape_toCaseInsensitiveValue (L : Lowering) (v : Value) :
    shape (toCaseInsensitiveValue L v) = shape v := by
  cases v <;> rfl

theorem shape_eq_of_sameContent {a b : Value} (h : SameContent a b) : shape a = shape b := by
  have := h []
  rw [getPath_nil, getPath_nil] at this
  exact Option.some.inj this

theorem sameContent_symm {a b : Value} (h : SameContent a b) : SameContent b a :=
  fun p => (h p).symm

theorem sameContent_refl (a : Value) : SameContent a a := fun _ => rfl

/-- A value with the contents of a map is a map. -/
theorem map_of_sameContent_map {m : StrMap} {b : Value} (h : SameContent (.map m) b) :
    ∃ m2, b = .map m2 := by
  have hs := shape_eq_of_sameContent h
  cases b with
  | map m2 => exact ⟨m2, rfl⟩
  | str s => simp [shape] at hs
  | int n => simp [shape] at hs
  | bool b => simp [shape] at hs
  | strs m2 => simp [shape] at hs

/-- Two maps with the same contents have the same keys, with values of the same
contents. -/
theorem lookup_of_sameContent {m m2 : StrMap} (h : SameContent (.map m) (.map m2))
    {k : String} {u : Value} (hu : lookup m k = some u) :
    ∃ u2, lookup m2 k = some u2 ∧ SameContent u u2 := by
  have h1 := h [k]
  rw [getPath_map_cons, getPath_map_cons, hu] at h1
  cases hl : lookup m2 k with
  | none => rw [hl] at h1; simp [getPath_nil] at h1
  | some u2 =>
    refine ⟨u2, rfl, ?_⟩
    intro p
    have h2 := h (k :: p)
    rw [getPath_map_cons, getPath_map_cons, hu, hl] at h2
    exact h2

theorem mem_of_lookup {m : StrMap} {k : String} {u : Value} (h : lookup m k = some u) :
    (k, u) ∈ m := by
  induction m with
  | nil => simp [lookup] at h
  | cons hd tl ih =>
    obtain ⟨k0, v0⟩ := hd
    unfold lookup at h
    by_cases hk : k0 = k
    · rw [if_pos hk] at h
      rw [hk, Option.some.inj h]
      exact List.mem_cons_self _ _
    · rw [if_neg hk] at h
      exact List.mem_cons_of_mem _ (ih h)

theorem lookup_of_mem_of_nodup {m : StrMap} (hnd : (keys m).Nodup) {k : String} {u : Value}
    (h : (k, u) ∈ m) : lookup m k = some u := by
  induction m with
  | nil => simp at h
  | cons hd tl ih =>
    obtain ⟨k0, v0⟩ := hd
    simp only [keys, List.map_cons, List.nodup_cons] at hnd
    unfold lookup
    rcases List.mem_cons.mp h with e | e
    · simp only [Prod.mk.injEq] at e
      rw [e.1, e.2, if_pos rfl]
    · have hne : k0 ≠ k := by
        intro hk
        exact hnd.1 (hk ▸ List.mem_map.mpr ⟨(k, u), e, rfl⟩)
      rw [if_neg hne]
      exact ih hnd.2 e

theorem mem_keys_of_lookup {m : StrMap} {k : String} {u : Value} (h : lookup m k = some u) :
    k ∈ keys m :=
  List.mem_map.mpr ⟨(k, u), mem_of_lookup h, rfl⟩

theorem lookup_isSome_of_mem_keys {m : StrMap} {k : String} (h : k ∈ keys m) :
    ∃ u, lookup m k = some u := by
  induction m with
  | nil => simp [keys] at h
  | cons hd tl ih =>
    obtain ⟨k0, v0⟩ := hd
    unfold lookup
    by_cases hk : k0 = k
    · exact ⟨v0, by rw [if_pos hk]⟩
    · rw [if_neg hk]
      simp only [keys, List.map_cons, List.mem_cons] at h
      rcases h with e | e
      · exact absurd e.symm hk
      · exact ih (by simpa [keys] using e)

/-- What `NoCollision` says of a map: its lower-cased keys are distinct, and
its values have no colliding keys either. -/
theorem noCollision_map {m : StrMap} (h : NoCollision L (.map m) = true) :
    ((keys m).map (toLower L)).Nodup ∧ ∀ k u, (k, u) ∈ m → NoCollision L u = true := by
  rw [NoCollision] at h
  simp only [Bool.and_eq_true, decide_eq_true_eq] at h
  refine ⟨h.1, ?_⟩
  have hall := h.2
  clear h
  induction m with
  | nil => intro k u hm; simp at hm
  | cons hd tl ih =>
    obtain ⟨k0, v0⟩ := hd
    simp only [NoCollision.NoCollisionAll, Bool.and_eq_true] at hall
    intro k u hm
    rcases List.mem_cons.mp hm with e | e
    · simp only [Prod.mk.injEq] at e
      rw [e.2]
      exact hall.1
    · exact ih hall.2 k u e

/-- Without colliding keys the copy of a map does not depend on the order in
which its entries are visited: two lists with the same contents are copied to
values with the same contents. -/
theorem sameContent_toCaseInsensitiveValue (L : Lowering) (p : List String) :
    ∀ (v v2 : Value), SameContent v v2 → NoCollision L v = true → NoCollision L v2 = true →
      (getPath (toCaseInsensitiveValue L v) p).map shape
        = (getPath (toCaseInsensitiveValue L v2) p).map shape := by
  induction p with
  | nil =>
    intro v v2 h _ _
    rw [getPath_nil, getPath_nil]
    simp only [Option.map_some', shape_toCaseInsensitiveValue]
    rw [shape_eq_of_sameContent h]
  | cons x p ih =>
    intro v v2 h hv hv2
    cases v with
    | map m =>
      obtain ⟨m2, rfl⟩ := map_of_sameContent_map h
      obtain ⟨hnd, hsub⟩ := noCollision_map hv
      obtain ⟨hnd2, hsub2⟩ := noCollision_map hv2
      rw [toCaseInsensitiveValue, toCaseInsensitiveValue, getPath_map_cons, getPath_map_cons]
      cases hl : lookup (copyLoop L m []) x with
      | none =>
        cases hl2 : lookup (copyLoop L m2 []) x with
        | none => rfl
        | some w2 =>
          exfalso
          rcases lookup_copyLoop_source m2 [] hl2 with h0 | ⟨k, u2, hmem, hk, _⟩
          · simp [lookup] at h0
          · have hlk := lookup_of_mem_of_nodup (List.Nodup.of_map _ hnd2) hmem
            obtain ⟨u, hu, _⟩ := lookup_of_sameContent (sameContent_symm h) hlk
            have hx : x ∈ keys (copyLoop L m []) := by
              rw [keys_copyLoop]
              exact Or.inr (List.mem_map.mpr ⟨k, mem_keys_of_lookup hu, hk⟩)
            obtain ⟨w, hw⟩ := lookup_isSome_of_mem_keys hx
            rw [hl] at hw
            exact Option.noConfusion hw
      | some w =>
        rcases lookup_copyLoop_source m [] hl with h0 | ⟨k, u, hmem, hk, hw⟩
        · simp [lookup] at h0
        · have hlk := lookup_of_mem_of_nodup (List.Nodup.of_map _ hnd) hmem
          obtain ⟨u2, hu2, hsame⟩ := lookup_of_sameContent h hlk
          have hcopy2 := lookup_copyLoop_of_nodup (L := L) m2 [] hnd2 (mem_of_lookup hu2)
          rw [hk] at hcopy2
          rw [hcopy2, hw]
          simp only [Option.some_bind]
          exact ih u u2 hsame (hsub k u hmem) (hsub2 k u2 (mem_of_lookup hu2))
    | str s =>
      have hs := shape_eq_of_sameContent h
      cases v2 <;> simp [shape] at hs
      subst hs
      rfl
    | int n =>
      have hs := shape_eq_of_sameContent h
      cases v2 <;> simp [shape] at hs
      subst hs
      rfl
    | bool b =>
      have hs := shape_eq_of_sameContent h
      cases v2 <;> simp [shape] at hs
      subst hs
      rfl
    | strs m =>
      have hs := shape_eq_of_sameContent h
      cases v2 <;> simp [shape] at hs
      subst hs
      rfl

theorem sameContent_insert (m : StrMap) (k : String) {a b : Value} (h : SameContent a b) :
    SameContent (.map (insert m k a)) (.map (insert m k b)) := by
  intro p
  cases p with
  | nil => rw [getPath_nil, getPath_nil]; rfl
  | cons x p =>
    rw [getPath_map_cons, getPath_map_cons]
    by_cases hx : k = x
    · subst hx
      rw [lookup_insert_self, lookup_insert_self]
      exact h p
    · rw [lookup_insert_ne _ _ hx, lookup_insert_ne _ _ hx]

/-- Writing values of the same contents at one place of one store gives stores
of the same contents. -/
theorem sameContent_writeBack (store : StrMap) (path : List String) (last : String)
    {a b : Value} (h : SameContent a b) :
    SameContent (.map (writeBack store path (insert (deepSearch store path) last a)))
      (.map (writeBack store path (insert (deepSearch store path) last b))) := by
  induction path generalizing store with
  | nil => exact sameContent_insert store last h
  | cons k path ih =>
    rw [writeBack_cons, writeBack_cons, deepSearch_cons]
    exact sameContent_insert store k (ih _)

/-- With the entries of one map taken in two orders, `SetDefault` on one key
gives stores of the same contents, when no keys of the map collide. -/
theorem SetDefault_sameContent (store : StrMap) {k1 k2 : String} {v v2 : Value}
    (hk : toLower L k1 = toLower L k2) (h : SameContent v v2)
    (hv : NoCollision L v = true) (hv2 : NoCollision L v2 = true) :
    ∃ s s2, SetDefault L store k1 v = some s ∧ SetDefault L store k2 v2 = some s2
      ∧ SameContent (.map s) (.map s2) := by
  obtain ⟨last, hl, _, h1⟩ := @SetDefault_eq L store k1 v
  obtain ⟨last2, hl2, _, h2⟩ := @SetDefault_eq L store k2 v2
  rw [← hk] at hl2 h2
  obtain rfl : last2 = last := Option.some.inj (hl2.symm.trans hl)
  refine ⟨_, _, h1, h2, ?_⟩
  exact sameContent_writeBack store _ _
    (fun p => sameContent_toCaseInsensitiveValue L p v v2 h hv hv2)

theorem lookup_eq_of_perm {m m2 : StrMap} (hp : m.Perm m2) (hnd : (keys m).Nodup)
    (k : String) : lookup m k = lookup m2 k := by
  induction hp with
  | nil => rfl
  | cons x _ ih =>
    obtain ⟨k0, v0⟩ := x
    simp only [keys, List.map_cons, List.nodup_cons] at hnd
    unfold lookup
    rw [ih hnd.2]
  | swap x y l =>
    obtain ⟨kx, vx⟩ := x
    obtain ⟨ky, vy⟩ := y
    simp only [keys, List.map_cons, List.nodup_cons, List.mem_cons, not_or] at hnd
    simp only [lookup]
    by_cases h1 : ky = k
    · have h2 : kx ≠ k := fun e => hnd.1.1 (h1.trans e.symm)
      simp [h1, h2]
    · simp [h1]
  | trans h12 _ ih1 ih2 =>
    rw [ih1 hnd]
    exact ih2 ((h12.map Prod.fst).nodup_iff.mp hnd)

/-- The entries of a Go map listed in two orders have the same contents. -/
theorem sameContent_of_perm {m m2 : StrMap} (hp : m.Perm m2) (hnd : (keys m).Nodup) :
    SameContent (.map m) (.map m2) := by
  intro p
  cases p with
  | nil => rw [getPath_nil, getPath_nil]; rfl
  | cons x p => rw [getPath_map_cons, getPath_map_cons, lookup_eq_of_perm hp hnd x]

/-! ## Lemmas: heap values -/

/-- A map that is an entry of itself is never copied, whatever depth is allowed. -/
theorem toCaseInsensitiveValueAt_self (L : Lowering) (key : String) (depth : Nat) :
    toCaseInsensitiveValueAt L [[(key, .mapAt 0)]] depth (.mapAt 0) = none := by
  induction depth with
  | zero => rfl
  | succ d ih =>
    rw [toCaseInsensitiveValueAt]
    simp only [List.getD_cons_zero, copyLoopAt, ih]

theorem SetDefaultAt_of_none {L : Lowering} {h : Heap} {depth : Nat} {r : Ref}
    (hr : toCaseInsensitiveValueAt L h depth r = none) (store : StrMap) (key : String) :
    SetDefaultAt L h depth store key r = none := by
  unfold SetDefaultAt
  simp only [hr]

theorem SetDefaultAt_of_some {L : Lowering} {h : Heap} {depth : Nat} {r : Ref} {v : Value}
    (hr : toCaseInsensitiveValueAt L h depth r = some (toCaseInsensitiveValue L v))
    (store : StrMap) (key : String) :
    SetDefaultAt L h depth store key r = SetDefault L store key v := by
  unfold SetDefaultAt SetDefault
  simp only [hr]

mutual
/-- A heap value that is a finite value is copied as that value is, once the
depth allowed reaches its nesting. -/
theorem toCaseInsensitiveValueAt_of_denotes (L : Lowering) (h : Heap) :
    ∀ (v : Value) (r : Ref) (depth : Nat), Denotes h r v → nesting v ≤ depth →
      toCaseInsensitiveValueAt L h depth r = some (toCaseInsensitiveValue L v)
  | .str s, r, depth, hd, _ => by
    rw [Denotes] at hd
    subst hd
    cases depth <;> rfl
  | .int n, r, depth, hd, _ => by
    rw [Denotes] at hd
    subst hd
    cases depth <;> rfl
  | .bool b, r, depth, hd, _ => by
    rw [Denotes] at hd
    subst hd
    cases depth <;> rfl
  | .strs m, r, depth, hd, _ => by
    rw [Denotes] at hd
    subst hd
    cases depth <;> rfl
  | .map m, r, depth, hd, hn => by
    rw [Denotes] at hd
    obtain ⟨a, es, rfl, ha, hes⟩ := hd
    rw [nesting] at hn
    obtain ⟨d, rfl⟩ : ∃ d, depth = d + 1 := ⟨depth - 1, by omega⟩
    have hget : List.getD h a [] = es := by
      rw [List.getD_eq_getElem?_getD, ha]
      rfl
    rw [toCaseInsensitiveValueAt, hget,
      copyLoopAt_of_denotes L h m es d [] hes (by omega), toCaseInsensitiveValue]
/-- The copy loop over heap entries that are finite entries runs as the loop
over those does. -/
theorem copyLoopAt_of_denotes (L : Lowering) (h : Heap) :
    ∀ (m : StrMap) (es : List (String × Ref)) (depth : Nat) (nm : StrMap),
      DenotesAll h es m → nesting.nestingAll m ≤ depth →
      copyLoopAt L (toCaseInsensitiveValueAt L h depth) es nm = some (copyLoop L m nm)
  | [], es, depth, nm, hd, _ => by
    rw [DenotesAll] at hd
    subst hd
    rfl
  | (k, v) :: tl, es, depth, nm, hd, hn => by
    rw [DenotesAll] at hd
    obtain ⟨r, rest, rfl, hr, hrest⟩ := hd
    rw [nesting.nestingAll] at hn
    rw [copyLoopAt, toCaseInsensitiveValueAt_of_denotes L h v r depth hr (by omega), copyLoop]
    exact copyLoopAt_of_denotes L h tl rest depth _ hrest (by omega)
end

/-! ## The claims -/

/-- C1, against the claim as stated, for every case table: from the empty store
and with no environment variable set, `SetDefault("a.b", "x")` is followed by
`Get("A.B") = ""`, not `"x"` (a dotted key is stored nested and `Get` reads the
top level only); and `SetDefault("m", {"Key": 1})` is followed by
`Get("M") = {"key": 1}`, not the value `{"Key": 1}` that was passed. -/
theorem C1_counterexample :
    (∀ L : Lowering,
      SetDefault L [] "a.b" (.str "x") = some [("a", .map [("b", .str "x")])]
      ∧ Get L emptyEnv [("a", .map [("b", .str "x")])] "A.B" = .str ""
      ∧ Get L emptyEnv [("a", .map [("b", .str "x")])] "A.B" ≠ .str "x")
    ∧ (∀ L : Lowering,
      SetDefault L [] "m" (.map [("Key", .int 1)]) = some [("m", .map [("key", .int 1)])]
      ∧ Get L emptyEnv [("m", .map [("key", .int 1)])] "M" = .map [("key", .int 1)]
      ∧ Get L emptyEnv [("m", .map [("key", .int 1)])] "M" ≠ .map [("Key", .int 1)]) := by
  constructor
  · intro L
    rw [SetDefault_of_ascii L _ (by decide) (by decide), Get_of_ascii L _ _ (by decide)]
    decide
  · intro L
    rw [SetDefault_of_ascii L _ (by decide) (by decide), Get_of_ascii L _ _ (by decide)]
    decide

/-- C1, amended: for every key `k` without a dot, every value `v` and every
store, if no environment variable named by the lower-cased `k` is set, then
after `SetDefault(k, v)` a call `Get(k2)` with any case variant `k2` of `k`
returns the key-normalised `v`, which is `v` itself when `v` is not a
`map[string]interface{}`. -/
theorem C1_setDefault_get_case_varied (L : Lowering) (env : Env) (store : StrMap)
    (k k2 : String) (v : Value)
    (hdot : '.' ∉ k.data) (hcase : toLower L k2 = toLower L k)
    (henv : env (toLower L k) = none) :
    ∃ s, SetDefault L store k v = some s
      ∧ Get L env s k2 = toCaseInsensitiveValue L v
      ∧ ((∀ m, v ≠ .map m) → Get L env s k2 = v) := by
  refine ⟨_, SetDefault_of_no_dot store v hdot, ?_, ?_⟩
  · exact Get_of_lookup (by rw [hcase]; exact Getenv_of_none henv)
      (by rw [hcase]; exact lookup_insert_self _ _ _)
  · intro hv
    rw [Get_of_lookup (v := toCaseInsensitiveValue L v) (by rw [hcase]; exact Getenv_of_none henv)
      (by rw [hcase]; exact lookup_insert_self _ _ _)]
    exact toCaseInsensitiveValue_of_not_map hv

/-- C1, at `SetDefault("Foo", "x")` on the store `{"other": 1}` and `Get("FOO")`. -/
theorem C1_setDefault_get_case_varied_witness :
    ∃ s, SetDefault asciiLower [("other", .int 1)] "Foo" (.str "x") = some s
      ∧ Get asciiLower emptyEnv s "FOO" = toCaseInsensitiveValue asciiLower (.str "x")
      ∧ ((∀ m, Value.str "x" ≠ .map m) → Get asciiLower emptyEnv s "FOO" = .str "x") :=
  C1_setDefault_get_case_varied asciiLower emptyEnv [("other", .int 1)] "Foo" "FOO" (.str "x")
    (by decide) (by decide) rfl

/-- C2: for every key `k`, every store and every non-empty string `e`, if the
environment variable named by the lower-cased `k` has the value `e`, then
`Get(k)` is the string `e`, whatever the store holds. -/
theorem C2_env_precedence (L : Lowering) (env : Env) (store : StrMap) (k e : String)
    (he : e ≠ "") (hset : env (toLower L k) = some e) :
    Get L env store k = .str e := by
  exact Get_of_env_some store he hset

/-- C2, at the variable `port` set to `"8080"` and a store holding the number
80 for `port`. -/
theorem C2_env_precedence_witness :
    Get asciiLower (singleEnv "port" "8080") [("port", .int 80)] "PORT" = .str "8080" :=
  C2_env_precedence asciiLower (singleEnv "port" "8080") [("port", .int 80)] "PORT" "8080"
    (by decide) (by decide)

/-- C3, against the claim as stated, for every case table: with the one
environment variable `FOO` set to `"bar"`, after `SetDefault("foo", "baz")` the
call `GetString("foo")` returns `"baz"`: `Get` reads the variable named `foo`,
which is not set. -/
theorem C3_counterexample :
    (∀ L : Lowering, SetDefault L [] "foo" (.str "baz") = some [("foo", .str "baz")])
    ∧ (∀ L : Lowering,
      GetString L (singleEnv "FOO" "bar") [("foo", .str "baz")] "foo" = "baz"
      ∧ GetString L (singleEnv "FOO" "bar") [("foo", .str "baz")] "foo" ≠ "bar") := by
  constructor
  · intro L
    rw [SetDefault_of_ascii L _ (by decide) (by decide)]
    decide
  · intro L
    unfold GetString
    rw [Get_of_ascii L _ _ (by decide)]
    decide

/-- C3, amended: with the environment variable `foo` (the lower-cased key) set
to `"bar"`, after `SetDefault("foo", "baz")` on any store, `GetString("foo")`
returns `"bar"`. -/
theorem C3_env_over_default (L : Lowering) (env : Env) (store : StrMap)
    (hset : env "foo" = some "bar") :
    ∃ s, SetDefault L store "foo" (.str "baz") = some s ∧ GetString L env s "foo" = "bar" := by
  refine ⟨_, SetDefault_of_no_dot store _ (by decide), ?_⟩
  unfold GetString
  have hl : toLower L "foo" = "foo" := by
    rw [toLower_of_isAscii L (by decide)]
    decide
  rw [Get_of_env_some (e := "bar") _ (by decide) (by rw [hl]; exact hset)]
  rfl

/-- C3, at the environment whose one variable is `foo`, set to `"bar"`. -/
theorem C3_env_over_default_witness :
    ∃ s, SetDefault asciiLower [] "foo" (.str "baz") = some s
      ∧ GetString asciiLower (singleEnv "foo" "bar") s "foo" = "bar" :=
  C3_env_over_default asciiLower (singleEnv "foo" "bar") [] (by decide)

/-- C4: for every key `k` and every store, if the environment variable named by
the lower-cased `k` is unset or empty and the lower-cased `k` is a key of the
top-level store, then `Get(k)` is the value stored under that key, as it is
stored. -/
theorem C4_default_fallback (L : Lowering) (env : Env) (store : StrMap) (k : String)
    (v : Value)
    (henv : env (toLower L k) = none ∨ env (toLower L k) = some "")
    (hkey : lookup store (toLower L k) = some v) :
    Get L env store k = v := by
  refine Get_of_lookup ?_ hkey
  rcases henv with h | h
  · exact Getenv_of_none h
  · exact Getenv_of_some h

/-- C4, at a store holding the number 80 for `port` and the variable `port`
set to the empty string. -/
theorem C4_default_fallback_witness :
    Get asciiLower (singleEnv "port" "") [("port", .int 80)] "Port" = .int 80 :=
  C4_default_fallback asciiLower (singleEnv "port" "") [("port", .int 80)] "Port" (.int 80)
    (Or.inr (by decide)) (by decide)

/-- C5: for every key `k`, if the environment variable named by the lower-cased
`k` is unset or empty and the lower-cased `k` is not a key of the top-level
store, then `Get(k)` is the empty string and every typed getter returns the
zero value of its type. -/
theorem C5_absent_is_zero (L : Lowering) (env : Env) (store : StrMap) (k : String)
    (henv : env (toLower L k) = none ∨ env (toLower L k) = some "")
    (hkey : lookup store (toLower L k) = none) :
    Get L env store k = .str ""
    ∧ GetString L env store k = ""
    ∧ GetBool L env store k = false
    ∧ GetInt L env store k = 0 ∧ GetInt32 L env store k = 0 ∧ GetInt64 L env store k = 0
    ∧ GetUint L env store k = 0 ∧ GetUint32 L env store k = 0
    ∧ GetUint64 L env store k = 0 := by
  have hg : Get L env store k = .str "" := by
    refine Get_of_absent ?_ hkey
    rcases henv with h | h
    · exact Getenv_of_none h
    · exact Getenv_of_some h
  unfold GetString GetBool GetInt GetInt32 GetInt64 GetUint GetUint32 GetUint64
  rw [hg]
  decide

/-- C5, at `missing_key` with no environment variable and a store that holds
other keys only. -/
theorem C5_absent_is_zero_witness :
    Get asciiLower emptyEnv [("port", .int 80)] "missing_key" = .str ""
    ∧ GetString asciiLower emptyEnv [("port", .int 80)] "missing_key" = ""
    ∧ GetBool asciiLower emptyEnv [("port", .int 80)] "missing_key" = false
    ∧ GetInt asciiLower emptyEnv [("port", .int 80)] "missing_key" = 0
    ∧ GetInt32 asciiLower emptyEnv [("port", .int 80)] "missing_key" = 0
    ∧ GetInt64 asciiLower emptyEnv [("port", .int 80)] "missing_key" = 0
    ∧ GetUint asciiLower emptyEnv [("port", .int 80)] "missing_key" = 0
    ∧ GetUint32 asciiLower emptyEnv [("port", .int 80)] "missing_key" = 0
    ∧ GetUint64 asciiLower emptyEnv [("port", .int 80)] "missing_key" = 0 :=
  C5_absent_is_zero asciiLower emptyEnv [("port", .int 80)] "missing_key" (Or.inl rfl)
    (by decide)

/-- C6, against the claim as stated, for every case table: the Go map
`{"A": 1, "a": 2}` is one value, and its entries can be visited in two orders.
Visited as `A`, `a`, `SetDefault("k", v)` gives the store `{"k": {"a": 2}}`;
visited as `a`, `A`, `SetDefault("K", v)` gives `{"k": {"a": 1}}`. -/
theorem C6_counterexample :
    List.Perm [("A", Value.int 1), ("a", Value.int 2)] [("a", Value.int 2), ("A", Value.int 1)]
    ∧ SameContent (.map [("A", .int 1), ("a", .int 2)]) (.map [("a", .int 2), ("A", .int 1)])
    ∧ (∀ L : Lowering, toLower L "k" = toLower L "K")
    ∧ (∀ L : Lowering,
      SetDefault L [] "k" (.map [("A", .int 1), ("a", .int 2)])
        = some [("k", .map [("a", .int 2)])])
    ∧ (∀ L : Lowering,
      SetDefault L [] "K" (.map [("a", .int 2), ("A", .int 1)])
        = some [("k", .map [("a", .int 1)])])
    ∧ getPath (.map [("k", .map [("a", .int 2)])]) ["k", "a"]
        ≠ getPath (.map [("k", .map [("a", .int 1)])]) ["k", "a"] := by
  refine ⟨by decide, sameContent_of_perm (by decide) (by decide), ?_, ?_, ?_, by decide⟩
  · intro L
    rw [toLower_of_isAscii L (by decide), @toLower_of_isAscii L "K" (by decide)]
    decide
  · intro L
    rw [SetDefault_of_ascii L _ (by decide) (by decide)]
    decide
  · intro L
    rw [SetDefault_of_ascii L _ (by decide) (by decide)]
    decide

/-- C6, amended: for all keys `k1`, `k2` with the same lower-casing, every store
and environment, and every value in which no two keys of one map have the same
lower-casing, given by its entries in any two orders `v`, `v2`: `SetDefault(k1,
v)` and `SetDefault(k2, v2)` succeed with stores of the same contents (the same
store when the two orders are the same), and `Get(k1) = Get(k2)`. -/
theorem C6_case_insensitive_keys (L : Lowering) (env : Env) (store : StrMap)
    (k1 k2 : String) (v v2 : Value)
    (h : toLower L k1 = toLower L k2) (hsame : SameContent v v2)
    (hv : NoCollision L v = true) (hv2 : NoCollision L v2 = true) :
    (∃ s s2, SetDefault L store k1 v = some s ∧ SetDefault L store k2 v2 = some s2
      ∧ SameContent (.map s) (.map s2) ∧ (v2 = v → s2 = s))
    ∧ Get L env store k1 = Get L env store k2 := by
  constructor
  · obtain ⟨s, s2, h1, h2, hc⟩ := SetDefault_sameContent store h hsame hv hv2
    refine ⟨s, s2, h1, h2, hc, ?_⟩
    intro e
    subst e
    unfold SetDefault at h1 h2
    rw [← h, h1] at h2
    exact (Option.some.inj h2).symm
  · unfold Get
    rw [h]

/-- C6, at the keys `Db.Host` and `dB.hOST`, the map `{"A": 1, "b": {"C": 2}}`
visited as `A`, `b` and as `b`, `A`, on a store that holds a string under
`db`. -/
theorem C6_case_insensitive_keys_witness :
    (∃ s s2,
      SetDefault asciiLower [("db", .str "x")] "Db.Host"
          (.map [("A", .int 1), ("b", .map [("C", .int 2)])]) = some s
      ∧ SetDefault asciiLower [("db", .str "x")] "dB.hOST"
          (.map [("b", .map [("C", .int 2)]), ("A", .int 1)]) = some s2
      ∧ SameContent (.map s) (.map s2)
      ∧ (Value.map [("b", .map [("C", .int 2)]), ("A", .int 1)]
          = Value.map [("A", .int 1), ("b", .map [("C", .int 2)])] → s2 = s))
    ∧ Get asciiLower emptyEnv [("db", .str "x")] "Db.Host"
        = Get asciiLower emptyEnv [("db", .str "x")] "dB.hOST" :=
  C6_case_insensitive_keys asciiLower emptyEnv [("db", .str "x")] "Db.Host" "dB.hOST"
    (.map [("A", .int 1), ("b", .map [("C", .int 2)])])
    (.map [("b", .map [("C", .int 2)]), ("A", .int 1)])
    (by decide) (sameContent_of_perm (by decide) (by decide)) (by decide) (by decide)

/-- C7: for every key, value and store, `SetDefault(key, v)` succeeds, and with
`s1, ..., sn` the segments of the lower-cased key split on dots (`n >= 1`),
reading the new store through `s1, ..., s(n-1)` finds a map after every step,
and the map reached holds the key-normalised `v` under `sn`.  From the empty
store `SetDefault("a.b.c", "x")` gives `{"a": {"b": {"c": "x"}}}`. -/
theorem C7_nested_creation (L : Lowering) :
    (∀ (store : StrMap) (key : String) (v : Value),
      ∃ s last d, SetDefault L store key v = some s
        ∧ Split (toLower L key) = (Split (toLower L key)).dropLast ++ [last]
        ∧ (∀ i, ∃ d2, getPath (.map s) ((Split (toLower L key)).dropLast.take i) = some (.map d2))
        ∧ getPath (.map s) (Split (toLower L key)).dropLast = some (.map d)
        ∧ lookup d last = some (toCaseInsensitiveValue L v))
    ∧ SetDefault L [] "a.b.c" (.str "x")
        = some [("a", .map [("b", .map [("c", .str "x")])])] := by
  refine ⟨?_, by rw [SetDefault_of_ascii L _ (by decide) (by decide)]; decide⟩
  intro store key v
  obtain ⟨s, last, d, hs, hsplit, hpath, hlast⟩ := SetDefault_getPath store key v
  exact ⟨s, last, d, hs, hsplit, fun i => getPath_take_map hpath i, hpath, hlast⟩

/-- C8, against the claim as stated, for every case table: with the one
environment variable `a` set (so none is named `a.b.c`), after
`SetDefault("a.b.c", "x")` on the empty store `Get("a")` is the string of the
environment and not a map; and with no variable set, after
`SetDefault("a.b.c", {"Key": 1})` the map `Get("a")` returns holds `{"key": 1}`
under `b`, `c`, not the value `{"Key": 1}` that was passed. -/
theorem C8_counterexample :
    singleEnv "a" "zzz" "a.b.c" = none
    ∧ (∀ L : Lowering,
      toLower L "a.b.c" = "a.b.c"
      ∧ SetDefault L [] "a.b.c" (.str "x") = some [("a", .map [("b", .map [("c", .str "x")])])]
      ∧ Get L (singleEnv "a" "zzz") [("a", .map [("b", .map [("c", .str "x")])])] "a"
          = .str "zzz"
      ∧ Get L (singleEnv "a" "zzz") [("a", .map [("b", .map [("c", .str "x")])])] "a"
          ≠ .map [("b", .map [("c", .str "x")])])
    ∧ (∀ L : Lowering,
      SetDefault L [] "a.b.c" (.map [("Key", .int 1)])
          = some [("a", .map [("b", .map [("c", .map [("key", .int 1)])])])]
      ∧ Get L emptyEnv [("a", .map [("b", .map [("c", .map [("key", .int 1)])])])] "a"
          = .map [("b", .map [("c", .map [("key", .int 1)])])])
    ∧ getPath (.map [("b", .map [("c", .map [("key", .int 1)])])]) ["b", "c"]
        ≠ some (.map [("Key", .int 1)]) := by
  refine ⟨by decide, ?_, ?_, by decide⟩
  · intro L
    rw [toLower_of_isAscii L (by decide), SetDefault_of_ascii L _ (by decide) (by decide),
      Get_of_ascii L _ _ (by decide)]
    decide
  · intro L
    rw [SetDefault_of_ascii L _ (by decide) (by decide), Get_of_ascii L _ _ (by decide)]
    decide

/-- C8, amended: for every key `k` with at least one dot and every value `v`,
from the empty store, with no environment variable named by the lower-cased `k`
and none named by its first segment, `SetDefault(k, v)` succeeds, after it
`Get(k)` is the empty string, and `Get` of the first segment is a map in which
the remaining segments lead to the key-normalised `v`. -/
theorem C8_flat_lookup (L : Lowering) (env : Env) (k : String) (v : Value)
    (hdot : '.' ∈ k.data) (henv : env (toLower L k) = none)
    (hfirst : ∀ first, (Split (toLower L k)).head? = some first → env first = none) :
    ∃ s first rest m, SetDefault L [] k v = some s
      ∧ Split (toLower L k) = first :: rest ∧ rest ≠ []
      ∧ Get L env s k = .str ""
      ∧ Get L env s first = .map m
      ∧ getPath (.map m) rest = some (toCaseInsensitiveValue L v) := by
  obtain ⟨last, _, hsplit, heq⟩ := SetDefault_eq [] k v
  have hlen : 2 ≤ (Split (toLower L k)).length := by
    unfold Split
    rw [List.length_map]
    exact length_splitDots_of_dot (dot_mem_toLower.mpr hdot)
  -- name the segments
  cases hsp : Split (toLower L k) with
  | nil => rw [hsp] at hlen; simp at hlen
  | cons first rest =>
    have hrest : rest ≠ [] := by
      intro e; rw [hsp, e] at hlen; simp at hlen
    have hfmem : first ∈ Split (toLower L k) := by rw [hsp]; exact List.mem_cons_self _ _
    have hflow : toLower L first = first := toLower_segment hfmem
    have hfenv : env first = none := hfirst first (by rw [hsp]; rfl)
    have hdrop : (first :: rest).dropLast = first :: rest.dropLast := by
      cases rest with
      | nil => exact absurd rfl hrest
      | cons r rs => rfl
    rw [hsp, hdrop] at heq hsplit
    have hrestsplit : rest = rest.dropLast ++ [last] := by
      have := hsplit
      simp only [List.cons_append, List.cons.injEq, true_and] at this
      exact this
    have hwb : writeBack [] (first :: rest.dropLast)
        (insert (deepSearch [] (first :: rest.dropLast)) last (toCaseInsensitiveValue L v))
        = [(first, .map (writeBack [] rest.dropLast
            (insert (deepSearch [] (first :: rest.dropLast)) last
              (toCaseInsensitiveValue L v))))] := rfl
    rw [hwb] at heq
    refine ⟨_, first, rest, writeBack [] rest.dropLast
      (insert (deepSearch [] (first :: rest.dropLast)) last (toCaseInsensitiveValue L v)),
      heq, rfl, hrest, ?_, ?_, ?_⟩
    · refine Get_of_absent (Getenv_of_none henv) ?_
      have hne : first ≠ toLower L k := by
        intro e
        have hnd := no_dot_of_mem_Split hfmem
        rw [e] at hnd
        exact hnd (dot_mem_toLower.mpr hdot)
      simp only [lookup, if_neg hne]
    · refine Get_of_lookup (by rw [hflow]; exact Getenv_of_none hfenv) ?_
      rw [hflow]
      simp only [lookup, if_true]
    · rw [hrestsplit]
      have hdl : (rest.dropLast ++ [last]).dropLast = rest.dropLast := by
        rw [← hrestsplit]
      rw [hdl]
      exact getPath_snoc (getPath_writeBack _ _ _) (lookup_insert_self _ _ _)

/-- C8, at `SetDefault("a.b.c", "x")` with no environment variable set. -/
theorem C8_flat_lookup_witness :
    ∃ s first rest m, SetDefault asciiLower [] "a.b.c" (.str "x") = some s
      ∧ Split (toLower asciiLower "a.b.c") = first :: rest ∧ rest ≠ []
      ∧ Get asciiLower emptyEnv s "a.b.c" = .str ""
      ∧ Get asciiLower emptyEnv s first = .map m
      ∧ getPath (.map m) rest = some (toCaseInsensitiveValue asciiLower (.str "x")) :=
  C8_flat_lookup asciiLower emptyEnv "a.b.c" (.str "x") (by decide) rfl (fun _ _ => rfl)

/-- What `SetDefault` stores for a `map[string]interface{}` value `m`: at the
path of the key, the map `copyAndInsensitiviseMap(m)`; when `m` contains no
`map[string]string`, every key of it at every nesting level is lower-case; at
each level the key set is the set of lower-cased keys of the original map it
comes from (`KeyNormalised`); and whenever no two keys of `m` coincide after
lower-casing, every entry of `m` is stored, normalised, under its lower-cased
key, a value that is not such a map being stored unchanged. -/
theorem copyAndInsensitiviseMap_spec (L : Lowering) (store : StrMap) (k : String)
    (m : StrMap) :
    (∃ s, SetDefault L store k (.map m) = some s
      ∧ getPath (.map s) (Split (toLower L k)) = some (.map (copyAndInsensitiviseMap L m)))
    ∧ (noTyped (.map m) = true → allKeysLower L (.map (copyAndInsensitiviseMap L m)) = true)
    ∧ (∀ x, x ∈ keys (copyAndInsensitiviseMap L m) ↔ x ∈ (keys m).map (toLower L))
    ∧ KeyNormalised L (.map m) (.map (copyAndInsensitiviseMap L m))
    ∧ (((keys m).map (toLower L)).Nodup → ∀ k0 v0, (k0, v0) ∈ m →
        lookup (copyAndInsensitiviseMap L m) (toLower L k0) = some (toCaseInsensitiveValue L v0)
        ∧ ((∀ m0, v0 ≠ .map m0) → lookup (copyAndInsensitiviseMap L m) (toLower L k0) = some v0)) := by
  refine ⟨SetDefault_getPath_full store k (.map m), ?_, ?_, ?_, ?_⟩
  · exact fun hp => allKeysLower_toCaseInsensitiveValue (.map m) hp
  · intro x
    simpa [keys, copyAndInsensitiviseMap] using keys_copyLoop m [] x
  · exact keyNormalised_toCaseInsensitiveValue (.map m)
  · intro hnd k0 v0 hmem
    have h := lookup_copyLoop_of_nodup m [] hnd hmem
    refine ⟨h, fun hv => ?_⟩
    rw [copyAndInsensitiviseMap, h, toCaseInsensitiveValue_of_not_map hv]

/-- C9, at the failing input `SetDefault("m", map[string]string{"Key": "v"})`,
for every case table: the type switch of `toCaseInsensitiveValue` has no arm
for this map type, so the map is stored as it is, under `m`, with its key
`Key`, which is not its own lower-casing `key`; the same entry in a
`map[string]interface{}` is stored under `key`. -/
theorem C9_typed_map_keeps_keys (L : Lowering) :
    toCaseInsensitiveValue L (.strs [("Key", "v")]) = .strs [("Key", "v")]
    ∧ SetDefault L [] "m" (.strs [("Key", "v")]) = some [("m", .strs [("Key", "v")])]
    ∧ toLower L "Key" = "key"
    ∧ allKeysLower L (.strs [("Key", "v")]) = false
    ∧ SetDefault L [] "m" (.map [("Key", .str "v")]) = some [("m", .map [("key", .str "v")])] := by
  have hk : toLower L "Key" = "key" := by
    rw [toLower_of_isAscii L (by decide)]
    decide
  refine ⟨rfl, ?_, hk, ?_, ?_⟩
  · rw [SetDefault_of_ascii L _ (by decide) (by decide)]
    decide
  · simp [allKeysLower, hk]
  · rw [SetDefault_of_ascii L _ (by decide) (by decide)]
    decide

/-- C10: for every store, key and value, if the segments of the lower-cased key
are `pre`, `k`, `rest` with `rest` not empty, and reading the store through
`pre` and then `k` reaches a value `w` that is not a map, then `SetDefault`
succeeds and the store then holds, in the place of `w`, the map that contains
only the path `rest` to the key-normalised value; `w` is no longer there. -/
theorem C10_lossy_overwrite (L : Lowering) (store : StrMap) (key : String) (v : Value)
    (pre : List String) (k : String) (rest : List String) (w : Value)
    (hsegs : Split (toLower L key) = pre ++ k :: rest) (hrest : rest ≠ [])
    (hread : getPath (.map store) (pre ++ [k]) = some w) (hw : ∀ m, w ≠ .map m) :
    ∃ s, SetDefault L store key v = some s
      ∧ getPath (.map s) (pre ++ [k]) = some (singletonPath rest (toCaseInsensitiveValue L v))
      ∧ getPath (.map s) (pre ++ [k]) ≠ some w := by
  obtain ⟨last, hlast, _, heq⟩ := SetDefault_eq store key v
  obtain ⟨q, r, rfl⟩ : ∃ q r, rest = q ++ [r] :=
    ⟨rest.dropLast, rest.getLast hrest, (List.dropLast_append_getLast hrest).symm⟩
  have hassoc : pre ++ k :: (q ++ [r]) = (pre ++ k :: q) ++ [r] := by simp
  rw [hsegs, hassoc] at hlast heq
  rw [List.getLast?_concat] at hlast
  rw [List.dropLast_concat] at heq
  obtain rfl : r = last := Option.some.inj hlast
  obtain ⟨hds, hgp⟩ := deepSearch_writeBack_of_not_map store pre k q
    (insert (deepSearch store (pre ++ k :: q)) r (toCaseInsensitiveValue L v)) hread hw
  have hval : getPath (.map (writeBack store (pre ++ k :: q)
      (insert (deepSearch store (pre ++ k :: q)) r (toCaseInsensitiveValue L v))))
      (pre ++ [k]) = some (singletonPath (q ++ [r]) (toCaseInsensitiveValue L v)) := by
    rw [hgp, writeBack_nil, hds, deepSearch_nil, singletonPath_append]
    rfl
  refine ⟨_, heq, hval, ?_⟩
  rw [hval]
  exact fun e => singletonPath_ne_of_not_map hrest _ hw (Option.some.inj e)

/-- C10, at `SetDefault("a", "x")` followed by `SetDefault("a.b", "y")`: the
store holds `{"b": "y"}` under `a`, and `"x"` is gone. -/
theorem C10_lossy_overwrite_witness :
    SetDefault asciiLower [] "a" (.str "x") = some [("a", .str "x")]
    ∧ SetDefault asciiLower [("a", .str "x")] "a.b" (.str "y") = some [("a", .map [("b", .str "y")])]
    ∧ Get asciiLower emptyEnv [("a", .map [("b", .str "y")])] "a" ≠ .str "x"
    ∧ ∃ s, SetDefault asciiLower [("a", .str "x")] "a.b" (.str "y") = some s
      ∧ getPath (.map s) ([] ++ ["a"])
          = some (singletonPath ["b"] (toCaseInsensitiveValue asciiLower (.str "y")))
      ∧ getPath (.map s) ([] ++ ["a"]) ≠ some (.str "x") :=
  ⟨by decide, by decide, by decide,
   C10_lossy_overwrite asciiLower [("a", .str "x")] "a.b" (.str "y") [] "a" ["b"] (.str "x")
     (by decide) (by decide) (by decide) (fun m => by simp)⟩

/-- C11, at the failing input `SetDefault("m", map[string]string{"Key": "v"})`
on the empty store, for every case table: the store reached holds, at its
second level, the key `Key`, which is not its own lower-casing. -/
theorem C11_typed_map_in_store (L : Lowering) :
    SetDefault L [] "m" (.strs [("Key", "v")]) = some [("m", .strs [("Key", "v")])]
    ∧ Reachable L [("m", .strs [("Key", "v")])]
    ∧ allKeysLower L (.map [("m", .strs [("Key", "v")])]) = false := by
  have hs : SetDefault L [] "m" (.strs [("Key", "v")]) = some [("m", .strs [("Key", "v")])] := by
    rw [SetDefault_of_ascii L _ (by decide) (by decide)]
    decide
  have hk : toLower L "Key" = "key" := by
    rw [toLower_of_isAscii L (by decide)]
    decide
  refine ⟨hs, Reachable.step "m" (.strs [("Key", "v")]) Reachable.empty hs, ?_⟩
  simp [allKeysLower, allKeysLower.allKeysLowerMap, hk]

/-- C12, against the claim as stated, for every case table: the map `m` with
`m["self"] = m` is the object at address 0 of the heap; whatever depth is
allowed to the copy, `toCaseInsensitiveValue` does not return on it, and so
`SetDefault("k", m)` returns no store. -/
theorem C12_counterexample :
    ([[("self", Ref.mapAt 0)]] : Heap)[0]? = some [("self", Ref.mapAt 0)]
    ∧ ∀ (L : Lowering) (depth : Nat),
        toCaseInsensitiveValueAt L [[("self", .mapAt 0)]] depth (.mapAt 0) = none
        ∧ SetDefaultAt L [[("self", .mapAt 0)]] depth [] "k" (.mapAt 0) = none := by
  refine ⟨rfl, fun L depth => ?_⟩
  have h := toCaseInsensitiveValueAt_self L "self" depth
  exact ⟨h, SetDefaultAt_of_none h [] "k"⟩

/-- C12, amended: for every store, every key string and every value that is a
finite tree, `SetDefault` succeeds: the split of the lower-cased key is never
empty, so its last segment and its all-but-last segments exist, and
`deepSearch` returns a map for them to be written into; and on a heap value
that is a finite tree the call returns that store once the depth allowed
reaches the nesting of the value.  The keys `""`, `"."`, `".."`, `".a"`, `"a."`
and `"a..b"` are evaluated. -/
theorem C12_setDefault_total (L : Lowering) :
    (∀ (store : StrMap) (key : String) (v : Value),
      Split (toLower L key) ≠ []
      ∧ (∃ last, (Split (toLower L key)).getLast? = some last
          ∧ Split (toLower L key) = (Split (toLower L key)).dropLast ++ [last]
          ∧ SetDefault L store key v
              = some (writeBack store (Split (toLower L key)).dropLast
                  (insert (deepSearch store (Split (toLower L key)).dropLast) last
                    (toCaseInsensitiveValue L v)))))
    ∧ (∀ (h : Heap) (r : Ref) (v : Value) (store : StrMap) (key : String) (depth : Nat),
      Denotes h r v → nesting v ≤ depth →
      SetDefaultAt L h depth store key r = SetDefault L store key v)
    ∧ SetDefault L [] "" (.int 1) = some [("", .int 1)]
    ∧ SetDefault L [] "." (.int 1) = some [("", .map [("", .int 1)])]
    ∧ SetDefault L [] ".." (.int 1) = some [("", .map [("", .map [("", .int 1)])])]
    ∧ SetDefault L [] ".a" (.int 1) = some [("", .map [("a", .int 1)])]
    ∧ SetDefault L [] "a." (.int 1) = some [("a", .map [("", .int 1)])]
    ∧ SetDefault L [] "a..b" (.int 1) = some [("a", .map [("", .map [("b", .int 1)])])] := by
  refine ⟨fun store key v => ⟨Split_ne_nil _, SetDefault_eq store key v⟩, ?_, ?_, ?_, ?_, ?_,
    ?_, ?_⟩
  · intro h r v store key depth hd hn
    exact SetDefaultAt_of_some (toCaseInsensitiveValueAt_of_denotes L h v r depth hd hn) store key
  all_goals
    rw [SetDefault_of_ascii L _ (by decide) (by decide)]
    decide

/-- C12, at the heap value `{"Sub": {"X": 1}}`, two maps deep, with depth 2
allowed. -/
theorem C12_setDefault_total_witness :
    SetDefaultAt asciiLower [[("Sub", .mapAt 1)], [("X", .int 1)]] 2 [] "K" (.mapAt 0)
        = SetDefault asciiLower [] "K" (.map [("Sub", .map [("X", .int 1)])])
    ∧ SetDefault asciiLower [] "K" (.map [("Sub", .map [("X", .int 1)])])
        = some [("k", .map [("sub", .map [("x", .int 1)])])] :=
  ⟨(C12_setDefault_total asciiLower).2.1 [[("Sub", .mapAt 1)], [("X", .int 1)]] (.mapAt 0)
      (.map [("Sub", .map [("X", .int 1)])]) [] "K" 2
      ⟨0, _, rfl, rfl, .mapAt 1, [], rfl, ⟨1, _, rfl, rfl, .int 1, [], rfl, rfl, rfl⟩, rfl⟩
      (by decide),
    by decide⟩

/-- C13, against the claim as stated, for every case table: the store
`{"a": {"b": 1}}` is reachable (by `SetDefault("a.b", 1)`) and holds the entry
at the path `a`, `b`; after `SetDefault("a", "x")` the store is `{"a": "x"}` and
that path leads nowhere. -/
theorem C13_counterexample :
    (∀ L : Lowering, Reachable L [("a", .map [("b", .int 1)])])
    ∧ getPath (.map [("a", .map [("b", .int 1)])]) ["a", "b"] = some (.int 1)
    ∧ (∀ L : Lowering,
      SetDefault L [("a", .map [("b", .int 1)])] "a" (.str "x") = some [("a", .str "x")])
    ∧ getPath (.map [("a", .str "x")]) ["a", "b"] = none := by
  refine ⟨?_, by decide, ?_, by decide⟩
  · intro L
    refine Reachable.step "a.b" (.int 1) Reachable.empty ?_
    rw [SetDefault_of_ascii L _ (by decide) (by decide)]
    decide
  · intro L
    rw [SetDefault_of_ascii L _ (by decide) (by decide)]
    decide

/-- C13, amended: for every store and every `SetDefault(key, v)` call, every
path that leads to a value before the call and does not continue past the
segments of the lower-cased key still leads to a value after the call; when
the path is not an initial part of those segments either, it leads to the same
value as before. -/
theorem C13_entries_kept (L : Lowering) (store : StrMap) (key : String) (v : Value)
    (p : List String) (w : Value)
    (hpresent : getPath (.map store) p = some w)
    (hnot : ¬ ∃ r, r ≠ [] ∧ p = Split (toLower L key) ++ r) :
    ∃ s, SetDefault L store key v = some s
      ∧ (∃ w2, getPath (.map s) p = some w2)
      ∧ ((¬ ∃ r, Split (toLower L key) = p ++ r) → getPath (.map s) p = some w) := by
  obtain ⟨s, hs, hfull⟩ := SetDefault_getPath_full store key v
  refine ⟨s, hs, ?_, ?_⟩
  · rcases path_trichotomy p (Split (toLower L key)) with
      ⟨r, hr⟩ | hext | ⟨c, x, y, r, q, hxy, hp, hsegs⟩
    · rw [hr] at hfull
      exact getPath_isSome_of_append hfull
    · exact absurd hext hnot
    · obtain ⟨s2, hs2, hframe⟩ := SetDefault_frame store key v hsegs hxy r
      obtain rfl : s2 = s := Option.some.inj (hs2.symm.trans hs)
      exact ⟨w, by rw [hp, hframe, ← hp]; exact hpresent⟩
  · intro hnp
    rcases path_trichotomy p (Split (toLower L key)) with
      hpre | hext | ⟨c, x, y, r, q, hxy, hp, hsegs⟩
    · exact absurd hpre hnp
    · exact absurd hext hnot
    · obtain ⟨s2, hs2, hframe⟩ := SetDefault_frame store key v hsegs hxy r
      obtain rfl : s2 = s := Option.some.inj (hs2.symm.trans hs)
      rw [hp, hframe, ← hp]
      exact hpresent

/-- C13, at the store `{"a": {"b": 1}, "z": "old"}` and `SetDefault("a.c", 2)`:
the path `a`, `b` still leads to 1. -/
theorem C13_entries_kept_witness :
    ∃ s, SetDefault asciiLower [("a", .map [("b", .int 1)]), ("z", .str "old")] "a.c" (.int 2) = some s
      ∧ (∃ w2, getPath (.map s) ["a", "b"] = some w2)
      ∧ ((¬ ∃ r, Split (toLower asciiLower "a.c") = ["a", "b"] ++ r)
          → getPath (.map s) ["a", "b"] = some (.int 1)) :=
  C13_entries_kept asciiLower [("a", .map [("b", .int 1)]), ("z", .str "old")] "a.c" (.int 2)
    ["a", "b"] (.int 1) (by decide)
    (by
      rintro ⟨r, _, hr⟩
      have h2 : Split (toLower asciiLower "a.c") = ["a", "c"] := by decide
      rw [h2] at hr
      simp at hr)

/-- C14: for every key whose looked-up value is the string `s`, `GetBool` is
true exactly when `s` is one of `1`, `t`, `T`, `TRUE`, `true`, `True`; for `0`,
`f`, `F`, `FALSE`, `false`, `False` and for every other string it is false. -/
theorem C14_getBool_truth_table (L : Lowering) (env : Env) (store : StrMap) (k s : String)
    (h : Get L env store k = .str s) :
    (GetBool L env store k = true
      ↔ s = "1" ∨ s = "t" ∨ s = "T" ∨ s = "TRUE" ∨ s = "true" ∨ s = "True")
    ∧ (s = "0" ∨ s = "f" ∨ s = "F" ∨ s = "FALSE" ∨ s = "false" ∨ s = "False"
        → GetBool L env store k = false)
    ∧ (¬ (s = "1" ∨ s = "t" ∨ s = "T" ∨ s = "TRUE" ∨ s = "true" ∨ s = "True")
        → GetBool L env store k = false) := by
  have hb : GetBool L env store k = parseBool s := by
    unfold GetBool
    rw [h]
    rfl
  rw [hb]
  refine ⟨parseBool_eq_true_iff s, ?_, ?_⟩
  · intro hs
    rcases hs with e | e | e | e | e | e <;> subst e <;> decide
  · intro hs
    cases hp : parseBool s with
    | false => rfl
    | true => exact absurd ((parseBool_eq_true_iff s).mp hp) hs

/-- C14, at the environment value `TRUE` of the variable `debug`; the values
`1`, `t`, `false`, `0`, `xyz` and the empty default are evaluated beside it. -/
theorem C14_getBool_truth_table_witness :
    ((GetBool asciiLower (singleEnv "debug" "TRUE") [] "DEBUG" = true
      ↔ "TRUE" = "1" ∨ "TRUE" = "t" ∨ "TRUE" = "T" ∨ "TRUE" = "TRUE" ∨ "TRUE" = "true"
          ∨ "TRUE" = "True")
    ∧ ("TRUE" = "0" ∨ "TRUE" = "f" ∨ "TRUE" = "F" ∨ "TRUE" = "FALSE" ∨ "TRUE" = "false"
          ∨ "TRUE" = "False"
        → GetBool asciiLower (singleEnv "debug" "TRUE") [] "DEBUG" = false)
    ∧ (¬ ("TRUE" = "1" ∨ "TRUE" = "t" ∨ "TRUE" = "T" ∨ "TRUE" = "TRUE" ∨ "TRUE" = "true"
          ∨ "TRUE" = "True")
        → GetBool asciiLower (singleEnv "debug" "TRUE") [] "DEBUG" = false))
    ∧ GetBool asciiLower (singleEnv "debug" "TRUE") [] "debug" = true
    ∧ GetBool asciiLower (singleEnv "debug" "1") [] "debug" = true
    ∧ GetBool asciiLower (singleEnv "debug" "t") [] "debug" = true
    ∧ GetBool asciiLower (singleEnv "debug" "false") [] "debug" = false
    ∧ GetBool asciiLower (singleEnv "debug" "0") [] "debug" = false
    ∧ GetBool asciiLower (singleEnv "debug" "xyz") [] "debug" = false
    ∧ GetBool asciiLower emptyEnv [("debug", .str "True")] "debug" = true
    ∧ GetBool asciiLower emptyEnv [("debug", .str "")] "debug" = false :=
  ⟨C14_getBool_truth_table asciiLower (singleEnv "debug" "TRUE") [] "DEBUG" "TRUE" (by decide),
    by decide, by decide, by decide, by decide, by decide, by decide, by decide, by decide⟩

/-- C15: for every key whose looked-up value is a string that denotes a
negative integer, `GetUint`, `GetUint32` and `GetUint64` return 0. -/
theorem C15_unsigned_rejects_negative (L : Lowering) (env : Env) (store : StrMap)
    (k s : String) (n : Int)
    (h : Get L env store k = .str s) (hparse : parseInt s = some n) (hneg : n < 0) :
    GetUint L env store k = 0 ∧ GetUint32 L env store k = 0 ∧ GetUint64 L env store k = 0 := by
  have hu : ∀ bits, castToUint bits (.str s) = 0 := by
    intro bits
    unfold castToUint
    simp only [hparse]
    rw [if_neg (fun hc => absurd hc.1 (not_le.mpr hneg))]
  unfold GetUint GetUint32 GetUint64
  rw [h]
  exact ⟨hu _, hu _, hu _⟩

/-- C15, at the environment value `-5`: the result is 0 at each width, and not
the wrap-around `2^64 - 5` or `2^32 - 5`. -/
theorem C15_unsigned_rejects_negative_witness :
    parseInt "-5" = some (-5)
    ∧ (GetUint asciiLower (singleEnv "n" "-5") [] "n" = 0 ∧ GetUint32 asciiLower (singleEnv "n" "-5") [] "n" = 0
        ∧ GetUint64 asciiLower (singleEnv "n" "-5") [] "n" = 0)
    ∧ GetUint asciiLower (singleEnv "n" "-5") [] "n" ≠ 2 ^ 64 - 5
    ∧ GetUint32 asciiLower (singleEnv "n" "-5") [] "n" ≠ 2 ^ 32 - 5 :=
  ⟨by decide,
    C15_unsigned_rejects_negative asciiLower (singleEnv "n" "-5") [] "n" "-5" (-5) (by decide) (by decide)
      (by decide),
    by decide, by decide⟩

/-- C16: for every key whose looked-up value is the string `s`, each of
`GetInt`, `GetInt32` and `GetInt64` returns the integer `s` denotes when `s` is
numeric and the integer fits the width of the getter, and returns 0 when `s` is
not numeric or the integer does not fit the width. -/
theorem C16_signed_getters (L : Lowering) (env : Env) (store : StrMap) (k s : String)
    (h : Get L env store k = .str s) :
    (∀ n, parseInt s = some n → -(2 ^ 63) ≤ n ∧ n < 2 ^ 63 →
        GetInt L env store k = n ∧ GetInt64 L env store k = n)
    ∧ (∀ n, parseInt s = some n → -(2 ^ 31) ≤ n ∧ n < 2 ^ 31 → GetInt32 L env store k = n)
    ∧ (parseInt s = none →
        GetInt L env store k = 0 ∧ GetInt32 L env store k = 0 ∧ GetInt64 L env store k = 0)
    ∧ (∀ n, parseInt s = some n → ¬ (-(2 ^ 63) ≤ n ∧ n < 2 ^ 63) →
        GetInt L env store k = 0 ∧ GetInt64 L env store k = 0)
    ∧ (∀ n, parseInt s = some n → ¬ (-(2 ^ 31) ≤ n ∧ n < 2 ^ 31) →
        GetInt32 L env store k = 0) := by
  unfold GetInt GetInt32 GetInt64 intSize
  rw [h]
  refine ⟨?_, ?_, ?_, ?_, ?_⟩
  · intro n hp hfit
    have : castToInt 64 (.str s) = n := by
      unfold castToInt
      simp only [hp]
      rw [if_pos (by simpa using hfit)]
    exact ⟨this, this⟩
  · intro n hp hfit
    unfold castToInt
    simp only [hp]
    rw [if_pos (by simpa using hfit)]
  · intro hp
    unfold castToInt
    simp [hp]
  · intro n hp hfit
    have : castToInt 64 (.str s) = 0 := by
      unfold castToInt
      simp only [hp]
      rw [if_neg (by simpa using hfit)]
    exact ⟨this, this⟩
  · intro n hp hfit
    unfold castToInt
    simp only [hp]
    rw [if_neg (by simpa using hfit)]

/-- C16, at the environment value `2147483648`: `GetInt32` returns 0, and
`GetInt` and `GetInt64` return the number; `-2147483648` fits `GetInt32`, and
`12abc` gives 0. -/
theorem C16_signed_getters_witness :
    parseInt "2147483648" = some 2147483648
    ∧ GetInt32 asciiLower (singleEnv "n" "2147483648") [] "n" = 0
    ∧ (GetInt asciiLower (singleEnv "n" "2147483648") [] "n" = 2147483648
        ∧ GetInt64 asciiLower (singleEnv "n" "2147483648") [] "n" = 2147483648)
    ∧ GetInt32 asciiLower (singleEnv "n" "-2147483648") [] "n" = -2147483648
    ∧ GetInt asciiLower (singleEnv "n" "12abc") [] "n" = 0
    ∧ GetInt32 asciiLower (singleEnv "n" "2147483648") [] "n" ≠ -2147483648 :=
  ⟨by decide,
    (C16_signed_getters asciiLower (singleEnv "n" "2147483648") [] "n" "2147483648" (by decide)).2.2.2.2
      2147483648 (by decide) (by decide),
    (C16_signed_getters asciiLower (singleEnv "n" "2147483648") [] "n" "2147483648" (by decide)).1
      2147483648 (by decide) (by decide),
    by decide, by decide, by decide⟩


/-- C17: for every store, key and value, `SetDefault` changes no entry beside
the path of the key.  A path that leaves the segments of the lower-cased key at
any point by another key reads the same before and after (the siblings at
every level); in particular a top-level entry whose key is not the first
segment is unchanged.  When all segments but the last already lead to a map,
that map is the old one with only the entry of the last segment written.
After `SetDefault("a.b", 1)` and `SetDefault("a.c", 2)` the store holds
`{"b": 1, "c": 2}` under `a`. -/
theorem C17_setDefault_frame (L : Lowering) :
    (∀ (store : StrMap) (key : String) (v : Value) (c : List String) (y : String)
        (q : List String) (x : String) (r : List String),
      Split (toLower L key) = c ++ y :: q → x ≠ y →
      ∃ s, SetDefault L store key v = some s
        ∧ getPath (.map s) (c ++ x :: r) = getPath (.map store) (c ++ x :: r))
    ∧ (∀ (store : StrMap) (key : String) (v : Value) (first : String) (rest : List String)
        (x : String),
      Split (toLower L key) = first :: rest → x ≠ first →
      ∃ s, SetDefault L store key v = some s ∧ lookup s x = lookup store x)
    ∧ (∀ (store : StrMap) (key : String) (v : Value) (d : StrMap),
      getPath (.map store) (Split (toLower L key)).dropLast = some (.map d) →
      ∃ s last, SetDefault L store key v = some s
        ∧ Split (toLower L key) = (Split (toLower L key)).dropLast ++ [last]
        ∧ getPath (.map s) (Split (toLower L key)).dropLast
            = some (.map (insert d last (toCaseInsensitiveValue L v))))
    ∧ SetDefault L [] "a.b" (.int 1) = some [("a", .map [("b", .int 1)])]
    ∧ SetDefault L [("a", .map [("b", .int 1)])] "a.c" (.int 2)
        = some [("a", .map [("b", .int 1), ("c", .int 2)])] := by
  refine ⟨?_, ?_, ?_, by rw [SetDefault_of_ascii L _ (by decide) (by decide)]; decide,
    by rw [SetDefault_of_ascii L _ (by decide) (by decide)]; decide⟩
  · intro store key v c y q x r hsegs hxy
    exact SetDefault_frame store key v hsegs hxy r
  · intro store key v first rest x hsegs hxy
    obtain ⟨s, hs, hframe⟩ := SetDefault_frame store key v
      (show Split (toLower L key) = [] ++ first :: rest from hsegs) hxy []
    refine ⟨s, hs, ?_⟩
    simp only [List.nil_append] at hframe
    rw [getPath_singleton, getPath_singleton] at hframe
    exact hframe
  · intro store key v d hd
    obtain ⟨last, _, hsplit, heq⟩ := SetDefault_eq store key v
    refine ⟨_, last, heq, hsplit, ?_⟩
    rw [deepSearch_of_getPath hd]
    exact getPath_writeBack _ _ _

/-- C17, at the store `{"a": {"b": 1}, "z": "old"}` and `SetDefault("a.c", 2)`:
the sibling `b` under `a` and the top-level entry `z` are unchanged, and the
map under `a` is the old one with `c` written. -/
theorem C17_setDefault_frame_witness :
    (∃ s, SetDefault asciiLower [("a", .map [("b", .int 1)]), ("z", .str "old")] "a.c" (.int 2) = some s
      ∧ getPath (.map s) (["a"] ++ "b" :: [])
          = getPath (.map [("a", .map [("b", .int 1)]), ("z", .str "old")]) (["a"] ++ "b" :: []))
    ∧ (∃ s, SetDefault asciiLower [("a", .map [("b", .int 1)]), ("z", .str "old")] "a.c" (.int 2) = some s
      ∧ lookup s "z" = lookup [("a", .map [("b", .int 1)]), ("z", .str "old")] "z")
    ∧ (∃ s last, SetDefault asciiLower [("a", .map [("b", .int 1)]), ("z", .str "old")] "a.c" (.int 2)
          = some s
      ∧ Split (toLower asciiLower "a.c") = (Split (toLower asciiLower "a.c")).dropLast ++ [last]
      ∧ getPath (.map s) (Split (toLower asciiLower "a.c")).dropLast
          = some (.map (insert [("b", .int 1)] last (toCaseInsensitiveValue asciiLower (.int 2))))) :=
  ⟨(C17_setDefault_frame asciiLower).1 _ "a.c" (.int 2) ["a"] "c" [] "b" [] (by decide) (by decide),
   (C17_setDefault_frame asciiLower).2.1 _ "a.c" (.int 2) "a" ["c"] "z" (by decide) (by decide),
   (C17_setDefault_frame asciiLower).2.2.1 _ "a.c" (.int 2) [("b", .int 1)] (by decide)⟩

/-- C18: in every store state reachable from the empty store by `SetDefault`
calls no top-level key contains a dot, and so for every key `k` that contains a
dot and whose lower-cased name is unset or empty in the environment, `Get(k)`
is the empty string. -/
theorem C18_no_dotted_top_level_key (L : Lowering) (s : StrMap) (h : Reachable L s) :
    (∀ x ∈ keys s, '.' ∉ x.data)
    ∧ ∀ (env : Env) (k : String), '.' ∈ k.data →
        (env (toLower L k) = none ∨ env (toLower L k) = some "") →
        Get L env s k = .str "" := by
  refine ⟨no_dot_keys_of_reachable h, ?_⟩
  intro env k hdot henv
  refine Get_of_absent ?_ (lookup_eq_none_of_not_mem_keys ?_)
  · rcases henv with e | e
    · exact Getenv_of_none e
    · exact Getenv_of_some e
  · intro hmem
    exact no_dot_keys_of_reachable h _ hmem (dot_mem_toLower.mpr hdot)

/-- C18, at the store reached by `SetDefault("A.B", {"c.d": 1})`: its one
top-level key is `a`, and `Get("A.B")` and `Get("c.d")` are the empty string. -/
theorem C18_no_dotted_top_level_key_witness :
    Reachable asciiLower [("a", .map [("b", .map [("c.d", .int 1)])])]
    ∧ (∀ x ∈ keys [("a", .map [("b", .map [("c.d", .int 1)])])], '.' ∉ x.data)
    ∧ Get asciiLower emptyEnv [("a", .map [("b", .map [("c.d", .int 1)])])] "A.B" = .str ""
    ∧ Get asciiLower emptyEnv [("a", .map [("b", .map [("c.d", .int 1)])])] "c.d" = .str "" :=
  have hr : Reachable asciiLower [("a", .map [("b", .map [("c.d", .int 1)])])] :=
    Reachable.step "A.B" (.map [("c.d", .int 1)]) Reachable.empty (by decide)
  ⟨hr, (C18_no_dotted_top_level_key asciiLower _ hr).1,
    (C18_no_dotted_top_level_key asciiLower _ hr).2 emptyEnv "A.B" (by decide) (Or.inl rfl),
    (C18_no_dotted_top_level_key asciiLower _ hr).2 emptyEnv "c.d" (by decide) (Or.inl rfl)⟩

/-- C19, against the claim as stated, for every case table: the Go map
`{"A": 1, "a": 2}` is one value, and its entries can be visited in two orders.
After `SetDefault("k", 0)`, `SetDefault("k", v)` visiting `A`, `a` gives the
store `{"k": {"a": 2}}`, while `SetDefault("k", v)` alone visiting `a`, `A`
gives `{"k": {"a": 1}}`; and `SetDefault("k", v)` a second time, visiting `a`,
`A`, turns the store `{"k": {"a": 2}}` of the first time into
`{"k": {"a": 1}}`. -/
theorem C19_counterexample :
    List.Perm [("A", Value.int 1), ("a", Value.int 2)] [("a", Value.int 2), ("A", Value.int 1)]
    ∧ SameContent (.map [("A", .int 1), ("a", .int 2)]) (.map [("a", .int 2), ("A", .int 1)])
    ∧ (∀ L : Lowering,
      SetDefault L [] "k" (.int 0) = some [("k", .int 0)]
      ∧ SetDefault L [("k", .int 0)] "k" (.map [("A", .int 1), ("a", .int 2)])
          = some [("k", .map [("a", .int 2)])]
      ∧ SetDefault L [] "k" (.map [("a", .int 2), ("A", .int 1)])
          = some [("k", .map [("a", .int 1)])]
      ∧ SetDefault L [] "k" (.map [("A", .int 1), ("a", .int 2)])
          = some [("k", .map [("a", .int 2)])]
      ∧ SetDefault L [("k", .map [("a", .int 2)])] "k" (.map [("a", .int 2), ("A", .int 1)])
          = some [("k", .map [("a", .int 1)])])
    ∧ getPath (.map [("k", .map [("a", .int 2)])]) ["k", "a"]
        ≠ getPath (.map [("k", .map [("a", .int 1)])]) ["k", "a"] := by
  refine ⟨by decide, sameContent_of_perm (by decide) (by decide), ?_, by decide⟩
  intro L
  refine ⟨?_, ?_, ?_, ?_, ?_⟩ <;>
    (rw [SetDefault_of_ascii L _ (by decide) (by decide)]; decide)

/-- C19, amended: for every store, key `k` and values `v1`, `v2`, where no two
keys of one map of `v2` have the same lower-casing and `v2`, `v3` give the
entries of that one value in any two orders: `SetDefault(k, v1)` followed by
`SetDefault(k, v2)` gives a store of the same contents as `SetDefault(k, v3)`
alone, and the same store when the two orders are the same; with `v3 = v1` the
store of the call alone is the store of the first call, which is idempotence,
also for a dotted key whose path replaces a value that is not a map. -/
theorem C19_last_write_wins (L : Lowering) (store : StrMap) (k : String) (v1 v2 v3 : Value)
    (hsame : SameContent v2 v3)
    (hv2 : NoCollision L v2 = true) (hv3 : NoCollision L v3 = true) :
    ∃ s1 s2 s3, SetDefault L store k v1 = some s1 ∧ SetDefault L s1 k v2 = some s2
      ∧ SetDefault L store k v3 = some s3
      ∧ SameContent (.map s2) (.map s3)
      ∧ (v3 = v2 → s3 = s2) ∧ (v3 = v1 → s3 = s1) := by
  obtain ⟨s1, s2, h1, h2, h3⟩ := @SetDefault_twice L store k v1 v2
  obtain ⟨s, s3, hs, hs3, hc⟩ := SetDefault_sameContent store (rfl : toLower L k = toLower L k)
    hsame hv2 hv3
  obtain rfl : s = s2 := Option.some.inj (hs.symm.trans h3)
  refine ⟨s1, s, s3, h1, h2, hs3, hc, ?_, ?_⟩
  · intro e
    subst e
    exact Option.some.inj (hs3.symm.trans h3)
  · intro e
    subst e
    exact Option.some.inj (hs3.symm.trans h1)

/-- C19, at the store `{"a": "x"}` and the key `a.b`, which replaces the string
under `a`: the values 1, then the map `{"A": 1, "b": 2}` visited as `A`, `b`,
against that map alone visited as `b`, `A`. -/
theorem C19_last_write_wins_witness :
    ∃ s1 s2 s3, SetDefault asciiLower [("a", .str "x")] "a.b" (.int 1) = some s1
      ∧ SetDefault asciiLower s1 "a.b" (.map [("A", .int 1), ("b", .int 2)]) = some s2
      ∧ SetDefault asciiLower [("a", .str "x")] "a.b" (.map [("b", .int 2), ("A", .int 1)])
          = some s3
      ∧ SameContent (.map s2) (.map s3)
      ∧ (Value.map [("b", .int 2), ("A", .int 1)] = Value.map [("A", .int 1), ("b", .int 2)]
          → s3 = s2)
      ∧ (Value.map [("b", .int 2), ("A", .int 1)] = Value.int 1 → s3 = s1) :=
  C19_last_write_wins asciiLower [("a", .str "x")] "a.b" (.int 1)
    (.map [("A", .int 1), ("b", .int 2)]) (.map [("b", .int 2), ("A", .int 1)])
    (sameContent_of_perm (by decide) (by decide)) (by decide) (by decide)

end Gotenv
